import Mathlib

/-!
Verification of the CXXRTL backend (src/backends/cxxrtl/cxxrtl.cc) against its
specification. The development shallowly embeds the analysis pipeline of the
backend: the name mangler, the flow-graph builder, the Eades-Lin-Smyth
feedback-arc scheduler, the edge-signal registrar, the elision/localization
analysis, and the branch structure of the emitter, and proves or refutes the
spec's claims about them.

Identifiers and C++ strings are modelled as lists of byte values (List Nat,
each element < 256). Wires, cells, processes and flow nodes are identified by
their index in the containing list, mirroring the pointer identity used by the
C++ containers. The insertion-ordered `pool` and `dict` containers of the
Yosys kernel are modelled as duplicate-free lists and association lists.
-/

set_option linter.unusedVariables false

/-! ## Generic container helpers (Yosys pool / dict semantics) -/

/-- Insert into an insertion-ordered set (`pool::insert`): appends the element
at the end unless it is already present. -/
def poolInsert {α : Type} [DecidableEq α] (l : List α) (x : α) : List α :=
  if x ∈ l then l else l ++ [x]

/-- Lookup in an insertion-ordered association list (`dict` access). -/
def assocLookup {α β : Type} [DecidableEq α] : List (α × β) → α → Option β
  | [], _ => none
  | (k, v) :: rest, a => if k = a then some v else assocLookup rest a

/-- Write through an insertion-ordered association list (`dict::operator[]`
followed by assignment): updates the entry in place if the key is present,
otherwise appends a new entry at the end. -/
def assocSet {α β : Type} [DecidableEq α] : List (α × β) → α → β → List (α × β)
  | [], a, b => [(a, b)]
  | (k, v) :: rest, a, b => if k = a then (k, b) :: rest else (k, v) :: assocSet rest a b

/-- Remove an entry from an association list (`dict::erase`). Since dict keys
are unique, removing every entry with the key is equivalent. -/
def assocErase {α β : Type} [DecidableEq α] : List (α × β) → α → List (α × β)
  | [], _ => []
  | (k, v) :: rest, a => if k = a then assocErase rest a else (k, v) :: assocErase rest a

/-- Insert a value into the pool stored under a key of a dict of pools
(`dict[key].insert(value)`). A missing key denotes the empty pool. -/
def dictPoolInsert {α : Type} [DecidableEq α] : List (α × List Nat) → α → Nat → List (α × List Nat)
  | [], k, v => [(k, [v])]
  | (k', l) :: rest, k, v =>
    if k' = k then (k', poolInsert l v) :: rest else (k', l) :: dictPoolInsert rest k v

/-- Read a pool-valued dict entry, defaulting to the empty pool. -/
def dictGet {α : Type} [DecidableEq α] (d : List (α × List Nat)) (k : α) : List Nat :=
  (assocLookup d k).getD []

/-- Pointwise function update, used for adjacency maps. -/
def updF {β : Type} (f : Nat → β) (k : Nat) (v : β) : Nat → β :=
  fun x => if x = k then v else f x

theorem assocLookup_assocSet_self {α β : Type} [DecidableEq α]
    (l : List (α × β)) (k : α) (v : β) : assocLookup (assocSet l k v) k = some v := by
  induction l with
  | nil => simp [assocSet, assocLookup]
  | cons p rest ih =>
    obtain ⟨k', v'⟩ := p
    simp only [assocSet]
    split
    · next hk =>
      simp only [assocLookup]
      rw [if_pos hk]
    · next hk =>
      simp only [assocLookup]
      rw [if_neg hk]
      exact ih

theorem assocLookup_assocSet_ne {α β : Type} [DecidableEq α]
    (l : List (α × β)) (k a : α) (v : β) (h : a ≠ k) :
    assocLookup (assocSet l k v) a = assocLookup l a := by
  have hka : ¬ k = a := fun hh => h hh.symm
  induction l with
  | nil => simp [assocSet, assocLookup, hka]
  | cons p rest ih =>
    obtain ⟨k', v'⟩ := p
    simp only [assocSet]
    split
    · next hk =>
      have hk'a : ¬ k' = a := by rw [hk]; exact hka
      simp only [assocLookup]
      rw [if_neg hk'a, if_neg hk'a]
    · next hk =>
      simp only [assocLookup]
      by_cases ha : k' = a
      · rw [if_pos ha, if_pos ha]
      · rw [if_neg ha, if_neg ha]
        exact ih

theorem assocLookup_assocErase {α β : Type} [DecidableEq α]
    (l : List (α × β)) (k a : α) :
    assocLookup (assocErase l k) a = if a = k then none else assocLookup l a := by
  induction l with
  | nil =>
    simp only [assocErase, assocLookup]
    split <;> rfl
  | cons p rest ih =>
    obtain ⟨k', v'⟩ := p
    simp only [assocErase]
    split
    · next hk =>
      rw [ih]
      by_cases hak : a = k
      · rw [if_pos hak, if_pos hak]
      · have hk'a : ¬ k' = a := by
          rw [hk]
          exact fun hh => hak hh.symm
        rw [if_neg hak, if_neg hak]
        simp only [assocLookup]
        rw [if_neg hk'a]
    · next hk =>
      simp only [assocLookup]
      by_cases hka : k' = a
      · have hak : ¬ a = k := by
          rw [← hka]
          exact fun hh => hk hh
        rw [if_pos hka, if_neg hak, if_pos hka]
      · rw [if_neg hka, ih]
        by_cases hak : a = k
        · rw [if_pos hak, if_pos hak]
        · rw [if_neg hak, if_neg hak, if_neg hka]

theorem mem_poolInsert {α : Type} [DecidableEq α] (l : List α) (x y : α) :
    y ∈ poolInsert l x ↔ y ∈ l ∨ y = x := by
  unfold poolInsert
  split
  · constructor
    · exact fun h => Or.inl h
    · rintro (h | rfl)
      · exact h
      · assumption
  · simp

theorem self_mem_poolInsert {α : Type} [DecidableEq α] (l : List α) (x : α) :
    x ∈ poolInsert l x := (mem_poolInsert l x x).mpr (Or.inr rfl)

/-- Generic invariant preservation through a left fold. -/
theorem foldl_preserve {α β : Type} (P : α → Prop) (f : α → β → α)
    (hf : ∀ a x, P a → P (f a x)) :
    ∀ (l : List β) (a : α), P a → P (l.foldl f a) := by
  intro l
  induction l with
  | nil => intro a h; exact h
  | cons x xs ih => intro a h; exact ih (f a x) (hf a x h)

/-! ## Component A: the name mangler (CxxrtlWorker::mangle_name, lines 402-430)

RTLIL identifiers are byte strings beginning with a backslash (byte 92,
public names) or a dollar sign (byte 36, internal names). -/

/-- C `isalnum` in the standard locale, on a byte. -/
def isalnum (c : Nat) : Bool :=
  (48 ≤ c && c ≤ 57) || (65 ≤ c && c ≤ 90) || (97 ≤ c && c ≤ 122)

/-- Lowercase hex digit of a nibble, as emitted by mangle_name. -/
def hex_digit (n : Nat) : Nat :=
  if n < 10 then 48 + n else 97 + (n - 10)

/-- Mangling of a single non-leading character: alphanumerics pass through,
the underscore (byte 95) is doubled, and any other byte becomes an underscore,
its two lowercase hex digits, and another underscore. -/
def mangle_char (c : Nat) : List Nat :=
  if isalnum c then [c]
  else if c = 95 then [95, 95]
  else [95, hex_digit (c / 16 % 16), hex_digit (c % 16), 95]

/-- Mangling of the identifier after its leading character. -/
def mangle_tail (cs : List Nat) : List Nat :=
  (cs.map mangle_char).flatten

/-- CxxrtlWorker::mangle_name: a leading backslash becomes the prefix p_
(bytes 112, 95), a leading dollar sign becomes i_ (bytes 105, 95); any other
leading character is a program error (log_assert), modelled as no prefix.
The remaining characters are escaped by mangle_char. -/
def mangle_name (name : List Nat) : List Nat :=
  match name with
  | [] => []
  | c :: cs =>
    (if c = 92 then [112, 95] else if c = 36 then [105, 95] else []) ++ mangle_tail cs

/-- Whitespace bytes, which RTLIL identifiers never contain. -/
def is_space (c : Nat) : Bool :=
  c = 32 || (9 ≤ c && c ≤ 13)

/-- A valid RTLIL identifier: nonempty, begins with backslash or dollar, and
all characters are non-whitespace bytes. -/
def valid_ident (name : List Nat) : Prop :=
  name ≠ [] ∧ (name.headD 0 = 92 ∨ name.headD 0 = 36) ∧
    ∀ c ∈ name, c < 256 ∧ is_space c = false

instance (name : List Nat) : Decidable (valid_ident name) := by
  unfold valid_ident
  infer_instance

theorem hex_digit_ne_95 (n : Nat) (h : n < 16) : hex_digit n ≠ 95 := by
  unfold hex_digit
  split <;> omega

theorem hex_digit_inj (a b : Nat) (ha : a < 16) (hb : b < 16)
    (h : hex_digit a = hex_digit b) : a = b := by
  unfold hex_digit at h
  split at h <;> split at h <;> omega

theorem mangle_char_ne_nil (c : Nat) : mangle_char c ≠ [] := by
  unfold mangle_char
  split
  · simp
  · split <;> simp

theorem mangle_tail_inj :
    ∀ xs ys : List Nat, (∀ c ∈ xs, c < 256) → (∀ c ∈ ys, c < 256) →
      mangle_tail xs = mangle_tail ys → xs = ys := by
  intro xs
  induction xs with
  | nil =>
    intro ys _ _ h
    cases ys with
    | nil => rfl
    | cons y ys =>
      exfalso
      simp only [mangle_tail, List.map_nil, List.flatten_nil, List.map_cons,
        List.flatten_cons] at h
      rcases List.append_eq_nil.mp h.symm with ⟨h1, _⟩
      exact mangle_char_ne_nil y h1
  | cons x xs ih =>
    intro ys hxs hys h
    cases ys with
    | nil =>
      exfalso
      simp only [mangle_tail, List.map_nil, List.flatten_nil, List.map_cons,
        List.flatten_cons] at h
      rcases List.append_eq_nil.mp h with ⟨h1, _⟩
      exact mangle_char_ne_nil x h1
    | cons y ys =>
      have hx : x < 256 := hxs x (by simp)
      have hy : y < 256 := hys y (by simp)
      have hxs' : ∀ c ∈ xs, c < 256 := fun c hc => hxs c (by simp [hc])
      have hys' : ∀ c ∈ ys, c < 256 := fun c hc => hys c (by simp [hc])
      simp only [mangle_tail, List.map_cons, List.flatten_cons, mangle_char] at h
      by_cases hax : isalnum x = true
      · rw [if_pos hax] at h
        by_cases hay : isalnum y = true
        · rw [if_pos hay] at h
          simp only [List.cons_append, List.nil_append, List.cons.injEq] at h
          have ht := ih ys hxs' hys' (by simpa [mangle_tail] using h.2)
          rw [h.1, ht]
        · exfalso
          rw [if_neg hay] at h
          by_cases hy95 : y = 95
          · rw [if_pos hy95] at h
            simp only [List.cons_append, List.nil_append, List.cons.injEq] at h
            rw [h.1] at hax
            exact absurd hax (by decide)
          · rw [if_neg hy95] at h
            simp only [List.cons_append, List.nil_append, List.cons.injEq] at h
            rw [h.1] at hax
            exact absurd hax (by decide)
      · rw [if_neg hax] at h
        by_cases hay : isalnum y = true
        · exfalso
          rw [if_pos hay] at h
          by_cases hx95 : x = 95
          · rw [if_pos hx95] at h
            simp only [List.cons_append, List.nil_append, List.cons.injEq] at h
            rw [← h.1] at hay
            exact absurd hay (by decide)
          · rw [if_neg hx95] at h
            simp only [List.cons_append, List.nil_append, List.cons.injEq] at h
            rw [← h.1] at hay
            exact absurd hay (by decide)
        · rw [if_neg hay] at h
          by_cases hx95 : x = 95
          · by_cases hy95 : y = 95
            · rw [if_pos hx95, if_pos hy95] at h
              simp only [List.cons_append, List.nil_append, List.cons.injEq,
                true_and] at h
              have ht := ih ys hxs' hys' (by simpa [mangle_tail] using h)
              rw [hx95, hy95, ht]
            · exfalso
              rw [if_pos hx95, if_neg hy95] at h
              simp only [List.cons_append, List.nil_append, List.cons.injEq,
                true_and] at h
              exact hex_digit_ne_95 (y / 16 % 16) (Nat.mod_lt _ (by norm_num)) h.1.symm
          · by_cases hy95 : y = 95
            · exfalso
              rw [if_neg hx95, if_pos hy95] at h
              simp only [List.cons_append, List.nil_append, List.cons.injEq,
                true_and] at h
              exact hex_digit_ne_95 (x / 16 % 16) (Nat.mod_lt _ (by norm_num)) h.1
            · rw [if_neg hx95, if_neg hy95] at h
              simp only [List.cons_append, List.nil_append, List.cons.injEq,
                true_and] at h
              obtain ⟨h1, h2, h3⟩ := h
              have e1 := hex_digit_inj _ _ (Nat.mod_lt _ (by norm_num))
                (Nat.mod_lt _ (by norm_num)) h1
              have e2 := hex_digit_inj _ _ (Nat.mod_lt _ (by norm_num))
                (Nat.mod_lt _ (by norm_num)) h2
              have hxy : x = y := by omega
              have ht := ih ys hxs' hys' (by simpa [mangle_tail] using h3)
              rw [hxy, ht]

/-- C6 (confirmed): mangle_name is injective on valid identifiers — any two
distinct identifiers, each beginning with a backslash or a dollar sign and
containing no whitespace, mangle to different strings. -/
theorem c6_mangle_name_injective (a b : List Nat)
    (ha : valid_ident a) (hb : valid_ident b) (hne : a ≠ b) :
    mangle_name a ≠ mangle_name b := by
  obtain ⟨hane, hahead, habytes⟩ := ha
  obtain ⟨hbne, hbhead, hbbytes⟩ := hb
  cases a with
  | nil => exact absurd rfl hane
  | cons c cs =>
    cases b with
    | nil => exact absurd rfl hbne
    | cons d ds =>
      intro h
      simp only [List.headD_cons] at hahead hbhead
      have hcs : ∀ e ∈ cs, e < 256 := fun e he => (habytes e (by simp [he])).1
      have hds : ∀ e ∈ ds, e < 256 := fun e he => (hbbytes e (by simp [he])).1
      unfold mangle_name at h
      rcases hahead with hc | hc <;> rcases hbhead with hd | hd
      · rw [hc, hd] at h
        simp at h
        have := mangle_tail_inj cs ds hcs hds (by simpa [mangle_tail] using h)
        rw [hc, hd, this] at hne
        exact hne rfl
      · rw [hc, hd] at h
        simp at h
      · rw [hc, hd] at h
        simp at h
      · rw [hc, hd] at h
        simp at h
        have := mangle_tail_inj cs ds hcs hds (by simpa [mangle_tail] using h)
        rw [hc, hd, this] at hne
        exact hne rfl

/-- Witness for C6: two concrete distinct valid identifiers with distinct
mangled forms. -/
theorem c6_mangle_name_injective_witness :
    valid_ident [92, 97] ∧ valid_ident [36, 97] ∧ [92, 97] ≠ [36, 97] ∧
      mangle_name [92, 97] ≠ mangle_name [36, 97] :=
  ⟨by decide, by decide, by decide,
    c6_mangle_name_injective [92, 97] [36, 97] (by decide) (by decide) (by decide)⟩

/-! ## Component H: optimization-level to flag mapping
(CxxrtlBackend::execute, lines 1723-1738, and DEFAULT_OPT_LEVEL, line 1633) -/

/-- The five optimization flags of CxxrtlWorker (lines 366-370). -/
structure OptFlags where
  elide_internal : Bool
  elide_public : Bool
  localize_internal : Bool
  localize_public : Bool
  run_splitnets : Bool
deriving DecidableEq, Repr

def DEFAULT_OPT_LEVEL : Int := 5

/-- The fallthrough switch over the optimization level in execute: each case
enables its flag and falls through into the cases below; the default case is
a user error (log_cmd_error), modelled as none. -/
def opt_level_flags (opt_level : Int) : Option OptFlags :=
  if opt_level = 5 then some ⟨true, true, true, true, true⟩
  else if opt_level = 4 then some ⟨true, true, true, true, false⟩
  else if opt_level = 3 then some ⟨true, true, true, false, false⟩
  else if opt_level = 2 then some ⟨true, false, true, false, false⟩
  else if opt_level = 1 then some ⟨true, false, false, false, false⟩
  else if opt_level = 0 then some ⟨false, false, false, false, false⟩
  else none

/-- C8 (confirmed): the optimization-level mapping is cumulative and monotone
exactly as specified, the default level is 5, and an invalid-level user error
is reported iff the level is outside 0..5. -/
theorem c8_opt_level_flags :
    opt_level_flags 0 = some ⟨false, false, false, false, false⟩ ∧
    opt_level_flags 1 = some ⟨true, false, false, false, false⟩ ∧
    opt_level_flags 2 = some ⟨true, false, true, false, false⟩ ∧
    opt_level_flags 3 = some ⟨true, true, true, false, false⟩ ∧
    opt_level_flags 4 = some ⟨true, true, true, true, false⟩ ∧
    opt_level_flags 5 = some ⟨true, true, true, true, true⟩ ∧
    DEFAULT_OPT_LEVEL = 5 ∧
    ∀ n : Int, opt_level_flags n = none ↔ (n < 0 ∨ 5 < n) := by
  refine ⟨by decide, by decide, by decide, by decide, by decide, by decide, by decide, ?_⟩
  intro n
  unfold opt_level_flags
  split_ifs with h5 h4 h3 h2 h1 h0 <;> simp <;> omega

/-! ## RTLIL data model (wires, signals, sync types) -/

/-- A wire: name bytes, width, port id (0 when not a port), keep attribute. -/
structure RWire where
  name : List Nat
  width : Nat
  port_id : Nat
  keep : Bool
deriving DecidableEq, Repr

/-- A signal chunk: either a constant (wire = none) or a slice
(wire, offset, width) of a named wire, identified by its index. -/
structure SigChunk where
  wire : Option Nat
  offset : Nat
  width : Nat
deriving DecidableEq, Repr

/-- A signal: a concatenation of chunks. -/
abbrev SigSpec := List SigChunk

def sig_size (s : SigSpec) : Nat := (s.map SigChunk.width).sum

def default_wire : RWire := ⟨[], 0, 0, false⟩

def wire_width (wires : List RWire) (w : Nat) : Nat :=
  (wires.getD w default_wire).width

/-- SigSpec::is_wire: a single wire chunk that covers its whole wire. -/
def sig_as_wire (wires : List RWire) : SigSpec → Option Nat
  | [c] =>
    match c.wire with
    | some w => if c.offset = 0 ∧ c.width = wire_width wires w then some w else none
    | none => none
  | _ => none

/-- A signal satisfying both is_wire and is_bit: a whole one-bit wire. -/
def sig_as_wire_bit (wires : List RWire) (s : SigSpec) : Option Nat :=
  match sig_as_wire wires s with
  | some w => if sig_size s = 1 then some w else none
  | none => none

/-- First bit of a signal (signal[0]); meaningful on wire-chunk signals. -/
def sig_bit0 (s : SigSpec) : Nat × Nat :=
  match s with
  | c :: _ =>
    match c.wire with
    | some w => (w, c.offset)
    | none => (0, 0)
  | [] => (0, 0)

/-- RTLIL sync rule types. -/
inductive SyncType where
  | ST0 | ST1 | STp | STn | STe | STa | STg | STi
deriving DecidableEq, Repr

/-- A process sync rule: type, trigger signal and action list. -/
structure SyncRule where
  type : SyncType
  signal : SigSpec
  actions : List (SigSpec × SigSpec)
deriving DecidableEq, Repr

/-! ## Component G (part): edge-guard emission of dump_process
(lines 1068-1115) and the flag declarations of dump_wire (lines 1139-1148) -/

/-- An edge-detection flag of a wire bit, as referenced by generated code. -/
inductive EdgeEvent where
  | posedge (bit : Nat × Nat)
  | negedge (bit : Nat × Nat)
deriving DecidableEq, Repr

/-- Events inserted for one sync rule by dump_process (the switch at lines
1080-1097). The STn case has no break statement and falls through into the
STe case, so an STn rule inserts its negedge event and then both edge events;
the duplicate negedge insertion is absorbed by the pool. Level, init and
global sync types reach log_assert(false), modelled as the empty event set. -/
def sync_rule_events (bit : Nat × Nat) (t : SyncType) : List EdgeEvent :=
  match t with
  | .STp => poolInsert [] (.posedge bit)
  | .STn => poolInsert (poolInsert (poolInsert [] (.negedge bit)) (.posedge bit)) (.negedge bit)
  | .STe => poolInsert (poolInsert [] (.posedge bit)) (.negedge bit)
  | _ => []

/-- One edge-guarded block emitted after the root case: the guard tests the
disjunction of the events and all of the rule's actions are applied inside. -/
structure SyncBlock where
  events : List EdgeEvent
  actions : List (SigSpec × SigSpec)
deriving DecidableEq, Repr

/-- The per-sync-rule loop of dump_process (lines 1075-1114): each rule's
signal bit is sig-mapped, its events collected, and when events exist a
guarded block holding all the rule's actions is emitted. -/
def dump_process_syncs (sigmap : (Nat × Nat) → (Nat × Nat))
    (syncs : List SyncRule) : List SyncBlock :=
  syncs.foldl (fun acc sync =>
    let sync_bit := sigmap (sig_bit0 sync.signal)
    let events := sync_rule_events sync_bit sync.type
    if events = [] then acc else acc ++ [⟨events, sync.actions⟩]) []

/-- Edge flags declared by dump_wire for a sync bit (lines 1139-1148): a
posedge flag is declared iff the consolidated sync type is not STn, a negedge
flag iff it is not STp. -/
def declared_events_for (bit : Nat × Nat) (t : SyncType) : List EdgeEvent :=
  (if t ≠ SyncType.STn then [EdgeEvent.posedge bit] else []) ++
  (if t ≠ SyncType.STp then [EdgeEvent.negedge bit] else [])

/-- C2 (code_bug): for a sync rule of type STn, dump_process emits a guard
testing BOTH the negedge and the posedge flag of the rule's signal bit — the
STn case of the switch falls through into the STe case — although the claim
requires only the negedge flag, and dump_wire declares no posedge flag for a
bit whose consolidated sync type is STn, so the emitted guard references an
undeclared identifier. The STp and STe cases behave exactly as claimed. -/
theorem c2_stn_sync_guard_bug :
    sync_rule_events (0, 0) SyncType.STn =
      [EdgeEvent.negedge (0, 0), EdgeEvent.posedge (0, 0)] ∧
    EdgeEvent.posedge (0, 0) ∈ sync_rule_events (0, 0) SyncType.STn ∧
    EdgeEvent.posedge (0, 0) ∉ declared_events_for (0, 0) SyncType.STn ∧
    sync_rule_events (0, 0) SyncType.STp = [EdgeEvent.posedge (0, 0)] ∧
    sync_rule_events (0, 0) SyncType.STe =
      [EdgeEvent.posedge (0, 0), EdgeEvent.negedge (0, 0)] ∧
    dump_process_syncs id [⟨SyncType.STn, [⟨some 0, 0, 1⟩], []⟩] =
      [⟨[EdgeEvent.negedge (0, 0), EdgeEvent.posedge (0, 0)], []⟩] := by
  decide

/-! ## Component D: the edge-signal registrar
(CxxrtlWorker::register_edge_signal, lines 1386-1398) -/

/-- The edge bookkeeping of the worker: sync_types maps a wire bit to its
consolidated sync type, sync_wires is the set of parent wires. -/
structure SyncState where
  sync_types : List ((Nat × Nat) × SyncType)
  sync_wires : List Nat
deriving DecidableEq, Repr

/-- CxxrtlWorker::register_edge_signal. The signal argument has already been
canonicalized through the module sig-map; the source then asserts that it is
a single bit covering a whole wire and that the type is an edge type, which
is modelled by leaving the state unchanged when the check fails (the source
aborts). If the bit has no recorded type the type is stored; a differing
recorded type is upgraded to STe; the parent wire joins sync_wires. -/
def register_edge_signal (wires : List RWire) (st : SyncState)
    (signal : SigSpec) (type : SyncType) : SyncState :=
  match sig_as_wire_bit wires signal with
  | none => st
  | some w =>
    let sigbit : Nat × Nat := (w, 0)
    let st' :=
      match assocLookup st.sync_types sigbit with
      | none => { st with sync_types := assocSet st.sync_types sigbit type }
      | some t =>
        if t ≠ type then
          { st with sync_types := assocSet st.sync_types sigbit SyncType.STe }
        else st
    { st' with sync_wires := poolInsert st'.sync_wires w }

/-- C7 (confirmed): register_edge_signal with an edge kind and a sig-mapped
single-wire-bit signal stores the kind when the bit has no entry, keeps an
equal entry unchanged, upgrades a differing entry to STe, and in all cases
inserts the parent wire into sync_wires. -/
theorem c7_register_edge_signal (wires : List RWire) (st : SyncState)
    (signal : SigSpec) (w : Nat) (kind : SyncType)
    (hkind : kind = SyncType.STp ∨ kind = SyncType.STn ∨ kind = SyncType.STe)
    (hsig : sig_as_wire_bit wires signal = some w) :
    (assocLookup st.sync_types (w, 0) = none →
      assocLookup (register_edge_signal wires st signal kind).sync_types (w, 0) = some kind) ∧
    (assocLookup st.sync_types (w, 0) = some kind →
      (register_edge_signal wires st signal kind).sync_types = st.sync_types) ∧
    (∀ t, assocLookup st.sync_types (w, 0) = some t → t ≠ kind →
      assocLookup (register_edge_signal wires st signal kind).sync_types (w, 0) =
        some SyncType.STe) ∧
    w ∈ (register_edge_signal wires st signal kind).sync_wires := by
  refine ⟨fun h0 => ?_, fun hk => ?_, fun t ht htk => ?_, ?_⟩
  · simp only [register_edge_signal, hsig, h0]
    exact assocLookup_assocSet_self _ _ _
  · simp only [register_edge_signal, hsig, hk]
    have hnn : ¬ kind ≠ kind := by simp
    rw [if_neg hnn]
  · simp only [register_edge_signal, hsig, ht, if_pos htk]
    exact assocLookup_assocSet_self _ _ _
  · simp only [register_edge_signal, hsig]
    exact self_mem_poolInsert _ _

def c7wires : List RWire := [⟨[92, 99], 1, 0, false⟩]

def c7sig : SigSpec := [⟨some 0, 0, 1⟩]

/-- Witness for C7 at a concrete one-bit wire signal and kind STp. -/
theorem c7_register_edge_signal_witness :
    ((SyncType.STp = SyncType.STp ∨ SyncType.STp = SyncType.STn ∨
        SyncType.STp = SyncType.STe) ∧
      sig_as_wire_bit c7wires c7sig = some 0) ∧
    0 ∈ (register_edge_signal c7wires ⟨[], []⟩ c7sig SyncType.STp).sync_wires :=
  ⟨⟨by decide, by decide⟩,
    (c7_register_edge_signal c7wires ⟨[], []⟩ c7sig 0 SyncType.STp
      (by decide) (by decide)).2.2.2⟩

/-! ## Cell model and classification predicates (lines 174-211) -/

/-- Cell types handled by the backend; builtin types carry their dollar name
implicitly, user (module instance) cells carry the instantiated module name. -/
inductive CellType where
  | c_not | c_logic_not | c_reduce_and | c_reduce_or | c_reduce_xor
  | c_reduce_xnor | c_reduce_bool | c_pos | c_neg
  | c_and | c_or | c_xor | c_xnor | c_logic_and | c_logic_or
  | c_shl | c_sshl | c_shr | c_sshr | c_shift | c_shiftx
  | c_eq | c_ne | c_eqx | c_nex | c_gt | c_ge | c_lt | c_le
  | c_add | c_sub | c_mul | c_div | c_mod
  | c_mux | c_concat | c_slice
  | c_pmux
  | c_dff | c_dffe | c_adff | c_dffsr | c_dlatch | c_dlatchsr | c_sr
  | c_memrd | c_memwr | c_meminit | c_mem
  | user (modname : List Nat)
deriving DecidableEq, Repr

def is_unary_cell : CellType → Bool
  | .c_not | .c_logic_not | .c_reduce_and | .c_reduce_or | .c_reduce_xor
  | .c_reduce_xnor | .c_reduce_bool | .c_pos | .c_neg => true
  | _ => false

def is_binary_cell : CellType → Bool
  | .c_and | .c_or | .c_xor | .c_xnor | .c_logic_and | .c_logic_or
  | .c_shl | .c_sshl | .c_shr | .c_sshr | .c_shift | .c_shiftx
  | .c_eq | .c_ne | .c_eqx | .c_nex | .c_gt | .c_ge | .c_lt | .c_le
  | .c_add | .c_sub | .c_mul | .c_div | .c_mod => true
  | _ => false

def is_elidable_cell (t : CellType) : Bool :=
  is_unary_cell t || is_binary_cell t ||
    (t = CellType.c_mux || t = CellType.c_concat || t = CellType.c_slice)

def is_sync_ff_cell (t : CellType) : Bool :=
  t = CellType.c_dff || t = CellType.c_dffe

def is_ff_cell (t : CellType) : Bool :=
  is_sync_ff_cell t ||
    (t = CellType.c_adff || t = CellType.c_dffsr || t = CellType.c_dlatch ||
     t = CellType.c_dlatchsr || t = CellType.c_sr)

/-- Builtin cell types all begin with a dollar sign and none is a paramod
type, so exactly the user cells are non-internal. -/
def is_internal_cell : CellType → Bool
  | .user _ => false
  | _ => true

/-- Cell port names occurring in the backend. -/
inductive PortName where
  | A | B | S | Y | CLK | EN | D | Q | ADDR | DATA | ARST | SET | CLR
  | other (name : List Nat)
deriving DecidableEq, Repr

/-- A cell: name, type, port connections, and the parameters the backend
reads. For user cells, user_outputs lists the ports that are outputs of the
instantiated module (the information cell->output takes from the design). -/
structure RCell where
  name : List Nat
  ctype : CellType
  connections : List (PortName × SigSpec)
  clk_polarity : Bool
  clk_enable : Bool
  en_polarity : Bool
  arst_polarity : Bool
  set_polarity : Bool
  clr_polarity : Bool
  transparent : Bool
  memid : Nat
  priority : Int
  user_outputs : List PortName
deriving DecidableEq, Repr

def getPort (c : RCell) (p : PortName) : Option SigSpec :=
  assocLookup c.connections p

def hasPort (c : RCell) (p : PortName) : Bool :=
  (getPort c p).isSome

/-- cell->output(port): output ports of the cell types the backend handles
(Y for combinational cells, Q for flip-flops and latches, DATA for memory
reads; user cells consult the instantiated module). -/
def cell_output (c : RCell) (p : PortName) : Bool :=
  match c.ctype with
  | .user _ => decide (p ∈ c.user_outputs)
  | t =>
    if is_elidable_cell t || t = CellType.c_pmux then decide (p = PortName.Y)
    else if is_ff_cell t then decide (p = PortName.Q)
    else if t = CellType.c_memrd then decide (p = PortName.DATA)
    else false

/-- cell->input(port): for the cell types modelled every connected
non-output port is an input. -/
def cell_input (c : RCell) (p : PortName) : Bool :=
  ! cell_output c p

/-! ## Component B: the flow-graph builder (struct FlowGraph, lines 213-357) -/

/-- Payload of a flow node: a connection, a cell (with its index in the
module cell list), or a process (by index). -/
inductive FNodeData where
  | connect (conn : SigSpec × SigSpec)
  | cell (idx : Nat) (c : RCell)
  | process (pid : Nat)
deriving DecidableEq, Repr

/-- The flow graph: node payloads in creation order (node ids are list
indices), def/use dicts from wires to node pools, and the two elidability
maps. -/
structure FlowGraph where
  nodes : List FNodeData
  wire_defs : List (Nat × List Nat)
  wire_uses : List (Nat × List Nat)
  wire_def_elidable : List (Nat × Bool)
  wire_use_elidable : List (Nat × Bool)
deriving DecidableEq, Repr

def empty_flow : FlowGraph := ⟨[], [], [], [], []⟩

/-- FlowGraph::add_defs (lines 237-245): every wire chunk contributes a def
of its wire; only a def of an entire wire records def-elidability. -/
def add_defs (mw : List RWire) (fg : FlowGraph) (node : Nat)
    (sig : SigSpec) (elidable : Bool) : FlowGraph :=
  let fg := sig.foldl (fun fg chunk =>
    match chunk.wire with
    | none => fg
    | some w => { fg with wire_defs := dictPoolInsert fg.wire_defs w node }) fg
  match sig_as_wire mw sig with
  | some w => { fg with wire_def_elidable := assocSet fg.wire_def_elidable w elidable }
  | none => fg

/-- Body of the chunk loop of FlowGraph::add_uses (lines 247-259): record the
use, and set use-elidability to true on the first recorded use chunk of the
wire and to false on every later one. -/
def add_use_chunk (fg : FlowGraph) (node : Nat) (chunk : SigChunk) : FlowGraph :=
  match chunk.wire with
  | none => fg
  | some w =>
    let fg := { fg with wire_uses := dictPoolInsert fg.wire_uses w node }
    match assocLookup fg.wire_use_elidable w with
    | none => { fg with wire_use_elidable := assocSet fg.wire_use_elidable w true }
    | some _ => { fg with wire_use_elidable := assocSet fg.wire_use_elidable w false }

/-- FlowGraph::add_uses. -/
def add_uses (fg : FlowGraph) (node : Nat) (sig : SigSpec) : FlowGraph :=
  sig.foldl (fun fg chunk => add_use_chunk fg node chunk) fg

/-- FlowGraph::is_elidable (lines 261-266). -/
def flow_is_elidable (fg : FlowGraph) (w : Nat) : Bool :=
  match assocLookup fg.wire_def_elidable w, assocLookup fg.wire_use_elidable w with
  | some d, some u => d && u
  | _, _ => false

/-- Add a connection node (lines 269-283): the left-hand side is an elidable
def, the right-hand side is used. -/
def add_node_connect (mw : List RWire) (fg : FlowGraph) (conn : SigSpec × SigSpec) : FlowGraph :=
  let node := fg.nodes.length
  let fg := { fg with nodes := fg.nodes ++ [FNodeData.connect conn] }
  add_uses (add_defs mw fg node conn.1 true) node conn.2

/-- FlowGraph::add_cell_defs_uses (lines 286-306): output ports contribute
defs except for sync flip-flop and clocked memory-read outputs; elidable and
user cell outputs are elidable defs, other internal cell outputs are
non-elidable defs; input ports contribute uses. -/
def add_cell_defs_uses (mw : List RWire) (fg : FlowGraph) (node : Nat) (cell : RCell) : FlowGraph :=
  cell.connections.foldl (fun fg conn =>
    let fg :=
      if cell_output cell conn.1 then
        if is_sync_ff_cell cell.ctype ||
            (cell.ctype = CellType.c_memrd && cell.clk_enable) then fg
        else if is_elidable_cell cell.ctype then add_defs mw fg node conn.2 true
        else if is_internal_cell cell.ctype then add_defs mw fg node conn.2 false
        else add_defs mw fg node conn.2 true
      else fg
    if cell_input cell conn.1 then add_uses fg node conn.2 else fg) fg

def add_node_cell (mw : List RWire) (fg : FlowGraph) (idx : Nat) (cell : RCell) : FlowGraph :=
  let node := fg.nodes.length
  let fg := { fg with nodes := fg.nodes ++ [FNodeData.cell idx cell] }
  add_cell_defs_uses mw fg node cell

/-! Process case trees: a case rule has compare signals, actions, and nested
switches; a switch has a selector signal and case rules. -/
mutual
inductive CaseRule : Type where
  | mk (compare : List SigSpec) (actions : List (SigSpec × SigSpec)) (switches : List SwitchRule)
inductive SwitchRule : Type where
  | mk (signal : SigSpec) (cases : List CaseRule)
end

def compare_of : CaseRule → List SigSpec
  | .mk cmp _ _ => cmp

/-! FlowGraph::add_case_defs_uses (lines 319-333): actions contribute
non-elidable defs of their left-hand sides and uses of their right-hand
sides; each nested switch uses its selector signal, then each of its cases
uses its compare signals and recurses. -/
mutual
def add_case_defs_uses (mw : List RWire) (node : Nat) (fg : FlowGraph) : CaseRule → FlowGraph
  | .mk _compare actions switches =>
    let fg := actions.foldl
      (fun fg action => add_uses (add_defs mw fg node action.1 false) node action.2) fg
    add_switch_list mw node fg switches
def add_switch_list (mw : List RWire) (node : Nat) (fg : FlowGraph) : List SwitchRule → FlowGraph
  | [] => fg
  | sw :: rest => add_switch_list mw node (add_switch_defs_uses mw node fg sw) rest
def add_switch_defs_uses (mw : List RWire) (node : Nat) (fg : FlowGraph) : SwitchRule → FlowGraph
  | .mk signal cases => add_case_list mw node (add_uses fg node signal) cases
def add_case_list (mw : List RWire) (node : Nat) (fg : FlowGraph) : List CaseRule → FlowGraph
  | [] => fg
  | c :: rest =>
    let fg := (compare_of c).foldl (fun fg cmp => add_uses fg node cmp) fg
    add_case_list mw node (add_case_defs_uses mw node fg c) rest
end

/-- A process: root case plus sync rules. -/
structure RProcess where
  root_case : CaseRule
  syncs : List SyncRule

/-- FlowGraph::add_process_defs_uses (lines 335-346): the root case is
walked; sync actions add defs only for non-edge sync types (edge-deferred
writes must not induce scheduling dependencies) but always add uses of their
right-hand sides. -/
def add_process_defs_uses (mw : List RWire) (fg : FlowGraph) (node : Nat) (p : RProcess) : FlowGraph :=
  let fg := add_case_defs_uses mw node fg p.root_case
  p.syncs.foldl (fun fg sync =>
    sync.actions.foldl (fun fg action =>
      let fg :=
        if sync.type = SyncType.STp ∨ sync.type = SyncType.STn ∨ sync.type = SyncType.STe then fg
        else add_defs mw fg node action.1 false
      add_uses fg node action.2) fg) fg

def add_node_process (mw : List RWire) (fg : FlowGraph) (pid : Nat) (p : RProcess) : FlowGraph :=
  let node := fg.nodes.length
  let fg := { fg with nodes := fg.nodes ++ [FNodeData.process pid] }
  add_process_defs_uses mw fg node p

/-! ## Claim C3: semantics of wire_use_elidable -/

/-- Number of wire chunks of a signal that mention wire w. -/
def countSig (sig : SigSpec) (w : Nat) : Nat :=
  (sig.filter (fun ch => decide (ch.wire = some w))).length

/-- Total number of use chunks mentioning w over a sequence of add_uses
calls (node, signal). -/
def use_chunk_count (calls : List (Nat × SigSpec)) (w : Nat) : Nat :=
  (calls.map (fun c => countSig c.2 w)).sum

/-- The value of wire_use_elidable for a wire with a given number of
recorded use chunks: absent for zero, true for one, false otherwise. -/
def use_flag_of_count : Nat → Option Bool
  | 0 => none
  | 1 => some true
  | _ => some false

theorem use_flag_two (n : Nat) : use_flag_of_count (n + 2) = some false := rfl

theorem add_use_chunk_elidable (fg : FlowGraph) (node : Nat) (ch : SigChunk)
    (w : Nat) (k : Nat)
    (h : assocLookup fg.wire_use_elidable w = use_flag_of_count k) :
    assocLookup (add_use_chunk fg node ch).wire_use_elidable w =
      use_flag_of_count (k + (if ch.wire = some w then 1 else 0)) := by
  unfold add_use_chunk
  cases hw : ch.wire with
  | none => simpa [hw] using h
  | some w' =>
    by_cases hww : w' = w
    · subst hww
      cases k with
      | zero =>
        simp only [use_flag_of_count] at h
        simp [hw, h, use_flag_of_count, assocLookup_assocSet_self]
      | succ n =>
        have hb : ∃ b, assocLookup fg.wire_use_elidable w' = some b := by
          cases n with
          | zero => exact ⟨true, by simpa [use_flag_of_count] using h⟩
          | succ m => exact ⟨false, by simpa [use_flag_of_count] using h⟩
        obtain ⟨b, hb⟩ := hb
        rw [if_pos rfl, show n + 1 + 1 = n + 2 from rfl, use_flag_two]
        simp [hb, assocLookup_assocSet_self]
    · have hne : ¬ (some w' = some w) := by simp [hww]
      have hwne : w ≠ w' := fun hh => hww hh.symm
      rw [if_neg hne, Nat.add_zero]
      cases hlw : assocLookup fg.wire_use_elidable w' <;>
        simp [hlw, assocLookup_assocSet_ne _ _ _ _ hwne, h]

theorem add_uses_elidable_lookup (sig : SigSpec) :
    ∀ (fg : FlowGraph) (node w k : Nat),
      assocLookup fg.wire_use_elidable w = use_flag_of_count k →
      assocLookup (add_uses fg node sig).wire_use_elidable w =
        use_flag_of_count (k + countSig sig w) := by
  induction sig with
  | nil =>
    intro fg node w k h
    simpa [add_uses, countSig] using h
  | cons ch rest ih =>
    intro fg node w k h
    have hstep := add_use_chunk_elidable fg node ch w k h
    have hrest := ih (add_use_chunk fg node ch) node w
      (k + (if ch.wire = some w then 1 else 0)) hstep
    have hcount : countSig (ch :: rest) w =
        (if ch.wire = some w then 1 else 0) + countSig rest w := by
      unfold countSig
      by_cases hc : ch.wire = some w
      · simp [List.filter_cons, hc]
        omega
      · simp [List.filter_cons, hc]
    have hgoal : add_uses fg node (ch :: rest) = add_uses (add_use_chunk fg node ch) node rest := rfl
    rw [hgoal, hcount, ← Nat.add_assoc]
    exact hrest

theorem add_uses_calls_elidable (calls : List (Nat × SigSpec)) :
    ∀ (fg : FlowGraph) (w k : Nat),
      assocLookup fg.wire_use_elidable w = use_flag_of_count k →
      assocLookup ((calls.foldl (fun fg c => add_uses fg c.1 c.2) fg).wire_use_elidable) w =
        use_flag_of_count (k + use_chunk_count calls w) := by
  induction calls with
  | nil =>
    intro fg w k h
    simpa [use_chunk_count] using h
  | cons c rest ih =>
    intro fg w k h
    have h1 := add_uses_elidable_lookup c.2 fg c.1 w k h
    have h2 := ih (add_uses fg c.1 c.2) w (k + countSig c.2 w) h1
    have hcount : use_chunk_count (c :: rest) w =
        countSig c.2 w + use_chunk_count rest w := by
      simp [use_chunk_count]
    rw [List.foldl_cons, hcount, ← Nat.add_assoc]
    exact h2

/-- C3 (corrected, amended form): after any sequence of use recordings
starting from the empty flow graph, wire_use_elidable[w] is true iff w is
mentioned by exactly ONE use chunk in total — repeated chunks or ports of a
single node each count, so a wire used twice by one node is not
use-elidable. -/
theorem c3_use_elidable_iff_single_use_chunk (calls : List (Nat × SigSpec)) (w : Nat) :
    assocLookup ((calls.foldl (fun fg c => add_uses fg c.1 c.2) empty_flow).wire_use_elidable) w =
        some true ↔
      use_chunk_count calls w = 1 := by
  have h := add_uses_calls_elidable calls empty_flow w 0 (by rfl)
  rw [Nat.zero_add] at h
  rw [h]
  rcases hc : use_chunk_count calls w with _ | n
  · simp [use_flag_of_count]
  · cases n with
    | zero => simp [use_flag_of_count]
    | succ m =>
      rw [show m + 1 + 1 = m + 2 from rfl, use_flag_two]
      simp

/-! ## Component C: the Eades-Lin-Smyth feedback-arc scheduler
(struct Scheduler, lines 42-172)

Vertices are identified by the ids of the flow nodes they carry; Scheduler::add
appends a fresh vertex per node. The three intrusive circular lists (sources,
sinks, and one per bin) are FIFO queues: link appends at the tail, removal
takes the head. -/

/-- The scheduler input: the vertex list in insertion (add) order and the
predecessor/successor pools of each vertex. -/
structure SchedGraph where
  vertices : List Nat
  preds : Nat → List Nat
  succs : Nat → List Nat

/-- The scheduler working state: current adjacency, the three queue kinds,
and the two output fragments. -/
structure SchedState where
  preds : Nat → List Nat
  succs : Nat → List Nat
  sinksQ : List Nat
  sourcesQ : List Nat
  bins : List (Int × List Nat)
  s1 : List Nat
  s2r : List Nat

def binsFlat (bins : List (Int × List Nat)) : List Nat :=
  (bins.map Prod.snd).flatten

/-- All vertices currently linked into some queue. -/
def allQueued (st : SchedState) : List Nat :=
  st.sinksQ ++ st.sourcesQ ++ binsFlat st.bins

def totalQ (st : SchedState) : Nat := (allQueued st).length

/-- Append a vertex to the bin with the given key, creating the bin at the
end when the key is new (dict::operator[] with on-demand sentinel, line 116). -/
def binsInsert : List (Int × List Nat) → Int → Nat → List (Int × List Nat)
  | [], d, v => [(d, [v])]
  | (k, q) :: rest, d, v =>
    if k = d then (k, q ++ [v]) :: rest else (k, q) :: binsInsert rest d v

/-- Vertex::delta (lines 79-82): successor count minus predecessor count. -/
def sdelta (st : SchedState) (v : Nat) : Int :=
  ((st.succs v).length : Int) - ((st.preds v).length : Int)

/-- Scheduler::relink (lines 107-119): a vertex with no successors joins the
sinks queue; otherwise one with no predecessors joins the sources queue;
otherwise it joins the bin keyed by its delta. -/
def relink (st : SchedState) (v : Nat) : SchedState :=
  if st.succs v = [] then { st with sinksQ := st.sinksQ ++ [v] }
  else if st.preds v = [] then { st with sourcesQ := st.sourcesQ ++ [v] }
  else { st with bins := binsInsert st.bins (sdelta st v) v }

/-- Vertex::unlink: remove the vertex from the queue holding it. A linked
vertex is in exactly one queue, so erasing it from every queue is
equivalent. -/
def unlinkAll (st : SchedState) (v : Nat) : SchedState :=
  { st with sinksQ := st.sinksQ.erase v,
            sourcesQ := st.sourcesQ.erase v,
            bins := st.bins.map (fun kq => (kq.1, kq.2.erase v)) }

/-- One predecessor update inside Scheduler::remove (lines 124-131): skip a
self loop, otherwise unlink the predecessor, erase v from its successor set
and relink it. The queued-ness test mirrors the log_assert in unlink that
the vertex being unlinked is linked; it always holds in reachable states. -/
def relink_pred (v : Nat) (st : SchedState) (p : Nat) : SchedState :=
  if p = v then st
  else if p ∈ allQueued st then
    relink { unlinkAll st p with succs := updF st.succs p ((st.succs p).erase v) } p
  else
    { st with succs := updF st.succs p ((st.succs p).erase v) }

/-- One successor update inside Scheduler::remove (lines 132-139). -/
def relink_succ (v : Nat) (st : SchedState) (q : Nat) : SchedState :=
  if q = v then st
  else if q ∈ allQueued st then
    relink { unlinkAll st q with preds := updF st.preds q ((st.preds q).erase v) } q
  else
    { st with preds := updF st.preds q ((st.preds q).erase v) }

/-- The predecessor loop of Scheduler::remove. -/
def removePredsPhase (v : Nat) (st1 : SchedState) : SchedState :=
  (st1.preds v).foldl (relink_pred v) st1

/-- The successor loop of Scheduler::remove. -/
def removeSuccsPhase (v : Nat) (st2 : SchedState) : SchedState :=
  (st2.succs v).foldl (relink_succ v) st2

/-- The final clearing of the removed vertex's sets (lines 140-141). -/
def removeFinish (v : Nat) (st3 : SchedState) : SchedState :=
  { st3 with preds := updF st3.preds v [], succs := updF st3.succs v [] }

/-- Scheduler::remove (lines 121-143): unlink the vertex, update and relink
every predecessor, then every successor, then clear the vertex's own sets. -/
def removeVertex (st : SchedState) (v : Nat) : SchedState :=
  removeFinish v (removeSuccsPhase v (removePredsPhase v (unlinkAll st v)))

/-- One round of the sinks drain (line 152-153): remove the front sink and
append it to s2r. -/
def stepSink (st : SchedState) : SchedState :=
  let v := st.sinksQ.headD 0
  let st' := removeVertex st v
  { st' with s2r := st'.s2r ++ [v] }

/-- One round of the sources drain (line 154-155). -/
def stepSource (st : SchedState) : SchedState :=
  let v := st.sourcesQ.headD 0
  let st' := removeVertex st v
  { st' with s1 := st'.s1 ++ [v] }

def drainSinksF : Nat → SchedState → SchedState
  | 0, st => st
  | fuel + 1, st => if st.sinksQ = [] then st else drainSinksF fuel (stepSink st)

/-- The inner while loop draining sinks; the fuel bound is shown sufficient
for a full drain by drainSinksF_complete below. -/
def drainSinks (st : SchedState) : SchedState := drainSinksF (totalQ st + 1) st

def drainSourcesF : Nat → SchedState → SchedState
  | 0, st => st
  | fuel + 1, st => if st.sourcesQ = [] then st else drainSourcesF fuel (stepSource st)

/-- The inner while loop draining sources. -/
def drainSources (st : SchedState) : SchedState := drainSourcesF (totalQ st + 1) st

/-- Insertion into a key-descending bin list. -/
def insertBinSorted (p : Int × List Nat) : List (Int × List Nat) → List (Int × List Nat)
  | [] => [p]
  | q :: rest => if p.1 ≤ q.1 then q :: insertBinSorted p rest else p :: q :: rest

/-- bins.sort with greater-than on keys (line 160): sort the bin list with
the greatest key first. -/
def sortBinsDesc : List (Int × List Nat) → List (Int × List Nat)
  | [] => []
  | p :: rest => insertBinSorted p (sortBinsDesc rest)

/-- First vertex of the first non-empty bin in the sorted order. -/
def findNonemptyBin : List (Int × List Nat) → Option Nat
  | [] => none
  | (_, []) :: rest => findNonemptyBin rest
  | (_, v :: _) :: _ => some v

/-- Removal step of the bin scan, on the state with sorted bins. -/
def pickBinFrom (st : SchedState) : SchedState :=
  match findNonemptyBin st.bins with
  | none => st
  | some v => { removeVertex st v with s1 := (removeVertex st v).s1 ++ [v] }

/-- The bin scan at the bottom of the loop (lines 159-167): sort the bins by
greatest key first and remove the front vertex of the first non-empty bin,
appending it to s1. -/
def pickBin (st : SchedState) : SchedState :=
  pickBinFrom { st with bins := sortBinsDesc st.bins }

/-- Scheduler::schedule main loop (lines 150-168). The C++ loop condition
(not all of sinks, sources and the stale bins_empty flag) is equivalent to
some queue being non-empty up to one trailing iteration that removes nothing
and changes nothing. The fuel, one more than the number of queued vertices,
is shown sufficient by scheduleLoopF_complete below. -/
def scheduleLoopF : Nat → SchedState → SchedState
  | 0, st => st
  | fuel + 1, st =>
    if totalQ st = 0 then st
    else scheduleLoopF fuel (pickBin (drainSources (drainSinks st)))

def scheduleLoop (st : SchedState) : SchedState := scheduleLoopF (totalQ st + 1) st

/-- The initial relinking of all vertices in insertion order (lines 148-149). -/
def scheduleInit (g : SchedGraph) : SchedState :=
  g.vertices.foldl relink
    { preds := g.preds, succs := g.succs, sinksQ := [], sourcesQ := [],
      bins := [], s1 := [], s2r := [] }

/-- Scheduler::schedule (lines 145-171): relink all vertices, run the loop,
and return s1 followed by the reverse of s2r. -/
def scheduler_schedule (g : SchedGraph) : List Nat :=
  let fin := scheduleLoop (scheduleInit g)
  fin.s1 ++ fin.s2r.reverse

/-! ## Scheduler correctness: every added vertex is scheduled exactly once -/

theorem relink_s1 (st : SchedState) (v : Nat) : (relink st v).s1 = st.s1 := by
  unfold relink
  split
  · rfl
  · split <;> rfl

theorem relink_s2r (st : SchedState) (v : Nat) : (relink st v).s2r = st.s2r := by
  unfold relink
  split
  · rfl
  · split <;> rfl

theorem headD_mem_of_ne_nil (l : List Nat) (h : l ≠ []) : l.headD 0 ∈ l := by
  cases l with
  | nil => exact absurd rfl h
  | cons a t => exact List.mem_cons_self a t

theorem binsFlat_binsInsert_perm (bins : List (Int × List Nat)) (d : Int) (v : Nat) :
    (binsFlat (binsInsert bins d v)).Perm (v :: binsFlat bins) := by
  induction bins with
  | nil => simp [binsFlat, binsInsert]
  | cons p rest ih =>
    obtain ⟨k, q⟩ := p
    unfold binsInsert
    split
    · show ((q ++ [v]) ++ binsFlat rest).Perm (v :: (q ++ binsFlat rest))
      rw [List.append_assoc]
      exact List.perm_middle
    · show (q ++ binsFlat (binsInsert rest d v)).Perm (v :: (q ++ binsFlat rest))
      exact (ih.append_left q).trans List.perm_middle

theorem relink_perm (st : SchedState) (v : Nat) :
    (allQueued (relink st v)).Perm (v :: allQueued st) := by
  unfold relink
  split
  · show ((st.sinksQ ++ [v]) ++ st.sourcesQ ++ binsFlat st.bins).Perm
      (v :: (st.sinksQ ++ st.sourcesQ ++ binsFlat st.bins))
    exact (List.perm_append_comm.append_right _).append_right _
  · split
    · show ((st.sinksQ ++ (st.sourcesQ ++ [v])) ++ binsFlat st.bins).Perm
        (v :: (st.sinksQ ++ st.sourcesQ ++ binsFlat st.bins))
      have h2 : (st.sourcesQ ++ [v]).Perm (v :: st.sourcesQ) := List.perm_append_comm
      have h3 : (st.sinksQ ++ (st.sourcesQ ++ [v])).Perm (st.sinksQ ++ (v :: st.sourcesQ)) :=
        h2.append_left st.sinksQ
      have h1 : (st.sinksQ ++ (st.sourcesQ ++ [v])).Perm (v :: (st.sinksQ ++ st.sourcesQ)) :=
        h3.trans List.perm_middle
      exact h1.append_right _
    · show ((st.sinksQ ++ st.sourcesQ) ++ binsFlat (binsInsert st.bins (sdelta st v) v)).Perm
        (v :: (st.sinksQ ++ st.sourcesQ ++ binsFlat st.bins))
      have h1 : ((st.sinksQ ++ st.sourcesQ) ++ binsFlat (binsInsert st.bins (sdelta st v) v)).Perm
          ((st.sinksQ ++ st.sourcesQ) ++ (v :: binsFlat st.bins)) :=
        (binsFlat_binsInsert_perm _ _ _).append_left _
      exact h1.trans List.perm_middle

theorem binsFlat_map_erase_of_not_mem (bins : List (Int × List Nat)) (v : Nat)
    (h : v ∉ binsFlat bins) :
    bins.map (fun kq => (kq.1, kq.2.erase v)) = bins := by
  induction bins with
  | nil => rfl
  | cons p rest ih =>
    obtain ⟨k, q⟩ := p
    have hq : v ∉ q := fun hv => h (List.mem_append_left _ hv)
    have hrest : v ∉ binsFlat rest := fun hv => h (List.mem_append_right _ hv)
    simp only [List.map_cons]
    rw [List.erase_of_not_mem hq, ih hrest]

theorem binsFlat_map_erase (bins : List (Int × List Nat)) (v : Nat)
    (h : (binsFlat bins).Nodup) :
    binsFlat (bins.map (fun kq => (kq.1, kq.2.erase v))) = (binsFlat bins).erase v := by
  induction bins with
  | nil => rfl
  | cons p rest ih =>
    obtain ⟨k, q⟩ := p
    have hparts := List.nodup_append.mp h
    show q.erase v ++ binsFlat (rest.map (fun kq => (kq.1, kq.2.erase v))) =
      (q ++ binsFlat rest).erase v
    by_cases hvq : v ∈ q
    · have hvrest : v ∉ binsFlat rest := fun hv => hparts.2.2 hvq hv
      rw [List.erase_append_left _ hvq, binsFlat_map_erase_of_not_mem rest v hvrest]
    · rw [List.erase_of_not_mem hvq, List.erase_append_right _ hvq, ih hparts.2.1]

theorem unlinkAll_allQueued (st : SchedState) (v : Nat)
    (h : (allQueued st).Nodup) :
    allQueued (unlinkAll st v) = (allQueued st).erase v := by
  have hparts := List.nodup_append.mp h
  have hparts2 := List.nodup_append.mp hparts.1
  show (st.sinksQ.erase v ++ st.sourcesQ.erase v) ++
      binsFlat (st.bins.map (fun kq => (kq.1, kq.2.erase v))) =
    ((st.sinksQ ++ st.sourcesQ) ++ binsFlat st.bins).erase v
  by_cases hsink : v ∈ st.sinksQ
  · have hsrc : v ∉ st.sourcesQ := fun hv => hparts2.2.2 hsink hv
    have hflat : v ∉ binsFlat st.bins := fun hv =>
      hparts.2.2 (List.mem_append_left _ hsink) hv
    rw [List.erase_of_not_mem hsrc, binsFlat_map_erase_of_not_mem _ _ hflat,
      List.erase_append_left _ (List.mem_append_left _ hsink),
      List.erase_append_left _ hsink]
  · by_cases hsrc : v ∈ st.sourcesQ
    · have hflat : v ∉ binsFlat st.bins := fun hv =>
        hparts.2.2 (List.mem_append_right _ hsrc) hv
      rw [List.erase_of_not_mem hsink, binsFlat_map_erase_of_not_mem _ _ hflat,
        List.erase_append_left _ (List.mem_append_right _ hsrc),
        List.erase_append_right _ hsink]
    · have hboth : v ∉ st.sinksQ ++ st.sourcesQ := by
        intro hv
        rcases List.mem_append.mp hv with hv | hv
        · exact hsink hv
        · exact hsrc hv
      by_cases hflat : v ∈ binsFlat st.bins
      · rw [List.erase_of_not_mem hsink, List.erase_of_not_mem hsrc,
          binsFlat_map_erase _ _ hparts.2.1, List.erase_append_right _ hboth]
      · rw [List.erase_of_not_mem hsink, List.erase_of_not_mem hsrc,
          binsFlat_map_erase_of_not_mem _ _ hflat]
        have : v ∉ (st.sinksQ ++ st.sourcesQ) ++ binsFlat st.bins := by
          intro hv
          rcases List.mem_append.mp hv with hv | hv
          · exact hboth hv
          · exact hflat hv
        rw [List.erase_of_not_mem this]

theorem relink_pred_perm (v : Nat) (st : SchedState) (p : Nat)
    (h : (allQueued st).Nodup) :
    (allQueued (relink_pred v st p)).Perm (allQueued st) := by
  unfold relink_pred
  split
  · exact List.Perm.refl _
  · split
    · next hp =>
      have h1 := relink_perm
        { unlinkAll st p with succs := updF st.succs p ((st.succs p).erase v) } p
      have h2 : allQueued
          { unlinkAll st p with succs := updF st.succs p ((st.succs p).erase v) } =
          (allQueued st).erase p := unlinkAll_allQueued st p h
      rw [h2] at h1
      exact h1.trans (List.perm_cons_erase hp).symm
    · exact List.Perm.refl _

theorem relink_succ_perm (v : Nat) (st : SchedState) (q : Nat)
    (h : (allQueued st).Nodup) :
    (allQueued (relink_succ v st q)).Perm (allQueued st) := by
  unfold relink_succ
  split
  · exact List.Perm.refl _
  · split
    · next hq =>
      have h1 := relink_perm
        { unlinkAll st q with preds := updF st.preds q ((st.preds q).erase v) } q
      have h2 : allQueued
          { unlinkAll st q with preds := updF st.preds q ((st.preds q).erase v) } =
          (allQueued st).erase q := unlinkAll_allQueued st q h
      rw [h2] at h1
      exact h1.trans (List.perm_cons_erase hq).symm
    · exact List.Perm.refl _

theorem foldl_relink_pred_perm (v : Nat) (l : List Nat) :
    ∀ st : SchedState, (allQueued st).Nodup →
      (allQueued (l.foldl (relink_pred v) st)).Perm (allQueued st) := by
  induction l with
  | nil => intro st h; exact List.Perm.refl _
  | cons p rest ih =>
    intro st h
    have h1 := relink_pred_perm v st p h
    have h2 := ih (relink_pred v st p) (h1.symm.nodup h)
    exact h2.trans h1

theorem foldl_relink_succ_perm (v : Nat) (l : List Nat) :
    ∀ st : SchedState, (allQueued st).Nodup →
      (allQueued (l.foldl (relink_succ v) st)).Perm (allQueued st) := by
  induction l with
  | nil => intro st h; exact List.Perm.refl _
  | cons q rest ih =>
    intro st h
    have h1 := relink_succ_perm v st q h
    have h2 := ih (relink_succ v st q) (h1.symm.nodup h)
    exact h2.trans h1

theorem removeVertex_perm (st : SchedState) (v : Nat)
    (h : (allQueued st).Nodup) (hv : v ∈ allQueued st) :
    (allQueued (removeVertex st v)).Perm ((allQueued st).erase v) := by
  have h1 : allQueued (unlinkAll st v) = (allQueued st).erase v :=
    unlinkAll_allQueued st v h
  have hnd1 : (allQueued (unlinkAll st v)).Nodup := by
    rw [h1]
    exact h.erase v
  have h2 : (allQueued (removePredsPhase v (unlinkAll st v))).Perm
      (allQueued (unlinkAll st v)) :=
    foldl_relink_pred_perm v _ _ hnd1
  have hnd2 : (allQueued (removePredsPhase v (unlinkAll st v))).Nodup :=
    h2.symm.nodup hnd1
  have h3 : (allQueued (removeSuccsPhase v (removePredsPhase v (unlinkAll st v)))).Perm
      (allQueued (removePredsPhase v (unlinkAll st v))) :=
    foldl_relink_succ_perm v _ _ hnd2
  have h4 : allQueued (removeVertex st v) =
      allQueued (removeSuccsPhase v (removePredsPhase v (unlinkAll st v))) := rfl
  rw [h4, ← h1]
  exact h3.trans h2

theorem relink_pred_s1 (v : Nat) (st : SchedState) (p : Nat) :
    (relink_pred v st p).s1 = st.s1 := by
  unfold relink_pred
  split
  · rfl
  · split
    · rw [relink_s1]
      rfl
    · rfl

theorem relink_pred_s2r (v : Nat) (st : SchedState) (p : Nat) :
    (relink_pred v st p).s2r = st.s2r := by
  unfold relink_pred
  split
  · rfl
  · split
    · rw [relink_s2r]
      rfl
    · rfl

theorem relink_succ_s1 (v : Nat) (st : SchedState) (q : Nat) :
    (relink_succ v st q).s1 = st.s1 := by
  unfold relink_succ
  split
  · rfl
  · split
    · rw [relink_s1]
      rfl
    · rfl

theorem relink_succ_s2r (v : Nat) (st : SchedState) (q : Nat) :
    (relink_succ v st q).s2r = st.s2r := by
  unfold relink_succ
  split
  · rfl
  · split
    · rw [relink_s2r]
      rfl
    · rfl

theorem foldl_relink_pred_s1 (v : Nat) (l : List Nat) :
    ∀ st : SchedState, (l.foldl (relink_pred v) st).s1 = st.s1 := by
  induction l with
  | nil => intro st; rfl
  | cons p rest ih => intro st; rw [List.foldl_cons, ih, relink_pred_s1]

theorem foldl_relink_pred_s2r (v : Nat) (l : List Nat) :
    ∀ st : SchedState, (l.foldl (relink_pred v) st).s2r = st.s2r := by
  induction l with
  | nil => intro st; rfl
  | cons p rest ih => intro st; rw [List.foldl_cons, ih, relink_pred_s2r]

theorem foldl_relink_succ_s1 (v : Nat) (l : List Nat) :
    ∀ st : SchedState, (l.foldl (relink_succ v) st).s1 = st.s1 := by
  induction l with
  | nil => intro st; rfl
  | cons q rest ih => intro st; rw [List.foldl_cons, ih, relink_succ_s1]

theorem foldl_relink_succ_s2r (v : Nat) (l : List Nat) :
    ∀ st : SchedState, (l.foldl (relink_succ v) st).s2r = st.s2r := by
  induction l with
  | nil => intro st; rfl
  | cons q rest ih => intro st; rw [List.foldl_cons, ih, relink_succ_s2r]

theorem removeVertex_s1 (st : SchedState) (v : Nat) :
    (removeVertex st v).s1 = st.s1 := by
  show (removeSuccsPhase v (removePredsPhase v (unlinkAll st v))).s1 = st.s1
  unfold removeSuccsPhase removePredsPhase
  rw [foldl_relink_succ_s1, foldl_relink_pred_s1]
  rfl

theorem removeVertex_s2r (st : SchedState) (v : Nat) :
    (removeVertex st v).s2r = st.s2r := by
  show (removeSuccsPhase v (removePredsPhase v (unlinkAll st v))).s2r = st.s2r
  unfold removeSuccsPhase removePredsPhase
  rw [foldl_relink_succ_s2r, foldl_relink_pred_s2r]
  rfl

/-- The scheduling invariant: the queued vertices together with the two
output fragments are a permutation of the vertex list. -/
def schedInv (V : List Nat) (st : SchedState) : Prop :=
  ((allQueued st ++ st.s1) ++ st.s2r).Perm V

theorem schedInv_nodup_queued (V : List Nat) (st : SchedState) (hV : V.Nodup)
    (h : schedInv V st) : (allQueued st).Nodup :=
  ((h.symm.nodup hV).of_append_left).of_append_left

theorem perm_shift_s2r (Q Q' s t : List Nat) (v : Nat) (hv : v ∈ Q)
    (hQ : Q'.Perm (Q.erase v)) :
    ((Q' ++ s) ++ (t ++ [v])).Perm ((Q ++ s) ++ t) := by
  rw [List.perm_iff_count]
  intro x
  have h1 := hQ.count_eq x
  have h2 := (List.perm_cons_erase hv).count_eq x
  simp only [List.count_append, List.count_cons, List.count_nil, beq_iff_eq] at h1 h2 ⊢
  by_cases hvx : v = x <;> simp only [hvx, if_true, if_false, if_pos, if_neg,
    not_false_iff] at h1 h2 ⊢ <;> omega

theorem perm_shift_s1 (Q Q' s t : List Nat) (v : Nat) (hv : v ∈ Q)
    (hQ : Q'.Perm (Q.erase v)) :
    ((Q' ++ (s ++ [v])) ++ t).Perm ((Q ++ s) ++ t) := by
  rw [List.perm_iff_count]
  intro x
  have h1 := hQ.count_eq x
  have h2 := (List.perm_cons_erase hv).count_eq x
  simp only [List.count_append, List.count_cons, List.count_nil, beq_iff_eq] at h1 h2 ⊢
  by_cases hvx : v = x <;> simp only [hvx, if_true, if_false, if_pos, if_neg,
    not_false_iff] at h1 h2 ⊢ <;> omega

theorem stepSink_spec (V : List Nat) (st : SchedState) (hV : V.Nodup)
    (hInv : schedInv V st) (hne : st.sinksQ ≠ []) :
    schedInv V (stepSink st) ∧ totalQ (stepSink st) + 1 = totalQ st := by
  have hnd : (allQueued st).Nodup := schedInv_nodup_queued V st hV hInv
  have hv : st.sinksQ.headD 0 ∈ st.sinksQ := headD_mem_of_ne_nil _ hne
  have hvQ : st.sinksQ.headD 0 ∈ allQueued st :=
    List.mem_append_left _ (List.mem_append_left _ hv)
  have hrm := removeVertex_perm st (st.sinksQ.headD 0) hnd hvQ
  constructor
  · unfold schedInv
    have e1 : allQueued (stepSink st) =
        allQueued (removeVertex st (st.sinksQ.headD 0)) := rfl
    have e2 : (stepSink st).s1 = st.s1 := removeVertex_s1 st _
    have e3 : (stepSink st).s2r = st.s2r ++ [st.sinksQ.headD 0] := by
      show (removeVertex st (st.sinksQ.headD 0)).s2r ++ [st.sinksQ.headD 0] =
        st.s2r ++ [st.sinksQ.headD 0]
      rw [removeVertex_s2r]
    rw [e1, e2, e3]
    exact (perm_shift_s2r _ _ _ _ _ hvQ hrm).trans hInv
  · have e1 : totalQ (stepSink st) =
        ((allQueued st).erase (st.sinksQ.headD 0)).length := by
      show (allQueued (removeVertex st (st.sinksQ.headD 0))).length = _
      exact hrm.length_eq
    have hpos : 0 < (allQueued st).length :=
      List.length_pos.mpr (List.ne_nil_of_mem hvQ)
    unfold totalQ at e1 ⊢
    rw [e1, List.length_erase_of_mem hvQ]
    omega

theorem stepSource_spec (V : List Nat) (st : SchedState) (hV : V.Nodup)
    (hInv : schedInv V st) (hne : st.sourcesQ ≠ []) :
    schedInv V (stepSource st) ∧ totalQ (stepSource st) + 1 = totalQ st := by
  have hnd : (allQueued st).Nodup := schedInv_nodup_queued V st hV hInv
  have hv : st.sourcesQ.headD 0 ∈ st.sourcesQ := headD_mem_of_ne_nil _ hne
  have hvQ : st.sourcesQ.headD 0 ∈ allQueued st :=
    List.mem_append_left _ (List.mem_append_right _ hv)
  have hrm := removeVertex_perm st (st.sourcesQ.headD 0) hnd hvQ
  constructor
  · unfold schedInv
    have e1 : allQueued (stepSource st) =
        allQueued (removeVertex st (st.sourcesQ.headD 0)) := rfl
    have e2 : (stepSource st).s2r = st.s2r := removeVertex_s2r st _
    have e3 : (stepSource st).s1 = st.s1 ++ [st.sourcesQ.headD 0] := by
      show (removeVertex st (st.sourcesQ.headD 0)).s1 ++ [st.sourcesQ.headD 0] =
        st.s1 ++ [st.sourcesQ.headD 0]
      rw [removeVertex_s1]
    rw [e1, e2, e3]
    exact (perm_shift_s1 _ _ _ _ _ hvQ hrm).trans hInv
  · have e1 : totalQ (stepSource st) =
        ((allQueued st).erase (st.sourcesQ.headD 0)).length := by
      show (allQueued (removeVertex st (st.sourcesQ.headD 0))).length = _
      exact hrm.length_eq
    have hpos : 0 < (allQueued st).length :=
      List.length_pos.mpr (List.ne_nil_of_mem hvQ)
    unfold totalQ at e1 ⊢
    rw [e1, List.length_erase_of_mem hvQ]
    omega

theorem drainSinksF_spec (V : List Nat) (hV : V.Nodup) :
    ∀ (fuel : Nat) (st : SchedState), schedInv V st →
      schedInv V (drainSinksF fuel st) ∧
      totalQ (drainSinksF fuel st) ≤ totalQ st ∧
      (totalQ st < fuel → (drainSinksF fuel st).sinksQ = []) ∧
      (st.sinksQ ≠ [] → 0 < fuel → totalQ (drainSinksF fuel st) < totalQ st) := by
  intro fuel
  induction fuel with
  | zero =>
    intro st h
    exact ⟨h, le_rfl, fun hlt => absurd hlt (Nat.not_lt_zero _),
      fun _ h0 => absurd h0 (lt_irrefl 0)⟩
  | succ fuel ih =>
    intro st h
    by_cases hs : st.sinksQ = []
    · have e : drainSinksF (fuel + 1) st = st := by simp [drainSinksF, hs]
      rw [e]
      exact ⟨h, le_rfl, fun _ => hs, fun hne _ => absurd hs hne⟩
    · have e : drainSinksF (fuel + 1) st = drainSinksF fuel (stepSink st) := by
        simp [drainSinksF, hs]
      obtain ⟨h1, h2⟩ := stepSink_spec V st hV h hs
      obtain ⟨ih1, ih2, ih3, _⟩ := ih (stepSink st) h1
      rw [e]
      exact ⟨ih1, by omega, fun hlt => ih3 (by omega), fun _ _ => by omega⟩

theorem drainSourcesF_spec (V : List Nat) (hV : V.Nodup) :
    ∀ (fuel : Nat) (st : SchedState), schedInv V st →
      schedInv V (drainSourcesF fuel st) ∧
      totalQ (drainSourcesF fuel st) ≤ totalQ st ∧
      (totalQ st < fuel → (drainSourcesF fuel st).sourcesQ = []) ∧
      (st.sourcesQ ≠ [] → 0 < fuel → totalQ (drainSourcesF fuel st) < totalQ st) := by
  intro fuel
  induction fuel with
  | zero =>
    intro st h
    exact ⟨h, le_rfl, fun hlt => absurd hlt (Nat.not_lt_zero _),
      fun _ h0 => absurd h0 (lt_irrefl 0)⟩
  | succ fuel ih =>
    intro st h
    by_cases hs : st.sourcesQ = []
    · have e : drainSourcesF (fuel + 1) st = st := by simp [drainSourcesF, hs]
      rw [e]
      exact ⟨h, le_rfl, fun _ => hs, fun hne _ => absurd hs hne⟩
    · have e : drainSourcesF (fuel + 1) st = drainSourcesF fuel (stepSource st) := by
        simp [drainSourcesF, hs]
      obtain ⟨h1, h2⟩ := stepSource_spec V st hV h hs
      obtain ⟨ih1, ih2, ih3, _⟩ := ih (stepSource st) h1
      rw [e]
      exact ⟨ih1, by omega, fun hlt => ih3 (by omega), fun _ _ => by omega⟩

theorem drainSinks_spec (V : List Nat) (hV : V.Nodup) (st : SchedState)
    (h : schedInv V st) :
    schedInv V (drainSinks st) ∧ totalQ (drainSinks st) ≤ totalQ st ∧
      (drainSinks st).sinksQ = [] ∧
      (st.sinksQ ≠ [] → totalQ (drainSinks st) < totalQ st) := by
  obtain ⟨h1, h2, h3, h4⟩ := drainSinksF_spec V hV (totalQ st + 1) st h
  exact ⟨h1, h2, h3 (by omega), fun hne => h4 hne (by omega)⟩

theorem drainSources_spec (V : List Nat) (hV : V.Nodup) (st : SchedState)
    (h : schedInv V st) :
    schedInv V (drainSources st) ∧ totalQ (drainSources st) ≤ totalQ st ∧
      (drainSources st).sourcesQ = [] ∧
      (st.sourcesQ ≠ [] → totalQ (drainSources st) < totalQ st) := by
  obtain ⟨h1, h2, h3, h4⟩ := drainSourcesF_spec V hV (totalQ st + 1) st h
  exact ⟨h1, h2, h3 (by omega), fun hne => h4 hne (by omega)⟩

theorem drainSinksF_of_empty (fuel : Nat) (st : SchedState) (h : st.sinksQ = []) :
    drainSinksF fuel st = st := by
  cases fuel <;> simp [drainSinksF, h]

theorem drainSourcesF_of_empty (fuel : Nat) (st : SchedState) (h : st.sourcesQ = []) :
    drainSourcesF fuel st = st := by
  cases fuel <;> simp [drainSourcesF, h]

theorem insertBinSorted_flat_perm (p : Int × List Nat) (l : List (Int × List Nat)) :
    (binsFlat (insertBinSorted p l)).Perm (p.2 ++ binsFlat l) := by
  induction l with
  | nil =>
    show (p.2 ++ binsFlat []).Perm (p.2 ++ binsFlat [])
    exact List.Perm.refl _
  | cons q rest ih =>
    unfold insertBinSorted
    split
    · show (q.2 ++ binsFlat (insertBinSorted p rest)).Perm (p.2 ++ (q.2 ++ binsFlat rest))
      have h1 : (q.2 ++ binsFlat (insertBinSorted p rest)).Perm
          (q.2 ++ (p.2 ++ binsFlat rest)) := ih.append_left _
      have h2 : (q.2 ++ (p.2 ++ binsFlat rest)).Perm (p.2 ++ (q.2 ++ binsFlat rest)) := by
        rw [← List.append_assoc, ← List.append_assoc]
        exact List.perm_append_comm.append_right _
      exact h1.trans h2
    · exact List.Perm.refl _

theorem sortBinsDesc_flat_perm (bins : List (Int × List Nat)) :
    (binsFlat (sortBinsDesc bins)).Perm (binsFlat bins) := by
  induction bins with
  | nil => exact List.Perm.refl _
  | cons p rest ih =>
    show (binsFlat (insertBinSorted p (sortBinsDesc rest))).Perm (p.2 ++ binsFlat rest)
    exact (insertBinSorted_flat_perm p (sortBinsDesc rest)).trans (ih.append_left _)

theorem findNonemptyBin_some_mem (bins : List (Int × List Nat)) (v : Nat)
    (h : findNonemptyBin bins = some v) : v ∈ binsFlat bins := by
  induction bins with
  | nil => cases h
  | cons p rest ih =>
    obtain ⟨k, q⟩ := p
    cases q with
    | nil =>
      have h' : findNonemptyBin rest = some v := h
      exact List.mem_append_right _ (ih h')
    | cons a t =>
      have h' : a = v := by
        have : some a = some v := h
        exact Option.some.injEq a v ▸ (by injection this)
      show v ∈ (a :: t) ++ binsFlat rest
      rw [← h']
      exact List.mem_append_left _ (List.mem_cons_self a t)

theorem findNonemptyBin_of_flat_ne (bins : List (Int × List Nat))
    (h : binsFlat bins ≠ []) : ∃ v, findNonemptyBin bins = some v := by
  induction bins with
  | nil => exact absurd rfl h
  | cons p rest ih =>
    obtain ⟨k, q⟩ := p
    cases q with
    | nil =>
      have h' : binsFlat rest ≠ [] := by
        intro hh
        apply h
        show [] ++ binsFlat rest = []
        rw [hh]
        rfl
      obtain ⟨v, hv⟩ := ih h'
      exact ⟨v, hv⟩
    | cons a t => exact ⟨a, rfl⟩

theorem pickBinFrom_spec (V : List Nat) (hV : V.Nodup) (st : SchedState)
    (h : schedInv V st) :
    schedInv V (pickBinFrom st) ∧ totalQ (pickBinFrom st) ≤ totalQ st ∧
      (binsFlat st.bins ≠ [] → totalQ (pickBinFrom st) < totalQ st) := by
  have hnd : (allQueued st).Nodup := schedInv_nodup_queued V st hV h
  cases hf : findNonemptyBin st.bins with
  | none =>
    have e : pickBinFrom st = st := by
      unfold pickBinFrom
      rw [hf]
    rw [e]
    refine ⟨h, le_rfl, fun hne => ?_⟩
    obtain ⟨v, hv⟩ := findNonemptyBin_of_flat_ne st.bins hne
    rw [hf] at hv
    cases hv
  | some v =>
    have e : pickBinFrom st =
        { removeVertex st v with s1 := (removeVertex st v).s1 ++ [v] } := by
      unfold pickBinFrom
      rw [hf]
    rw [e]
    have hvflat : v ∈ binsFlat st.bins := findNonemptyBin_some_mem st.bins v hf
    have hvQ : v ∈ allQueued st := List.mem_append_right _ hvflat
    have hrm := removeVertex_perm st v hnd hvQ
    have hpos : 0 < (allQueued st).length :=
      List.length_pos.mpr (List.ne_nil_of_mem hvQ)
    have hlen : totalQ { removeVertex st v with s1 := (removeVertex st v).s1 ++ [v] } + 1 =
        totalQ st := by
      unfold totalQ
      have e1 : allQueued { removeVertex st v with s1 := (removeVertex st v).s1 ++ [v] } =
          allQueued (removeVertex st v) := rfl
      rw [e1, hrm.length_eq, List.length_erase_of_mem hvQ]
      omega
    refine ⟨?_, by omega, fun _ => by omega⟩
    unfold schedInv
    have e1 : allQueued { removeVertex st v with s1 := (removeVertex st v).s1 ++ [v] } =
        allQueued (removeVertex st v) := rfl
    have e2 : ({ removeVertex st v with s1 := (removeVertex st v).s1 ++ [v] }).s2r = st.s2r := by
      show (removeVertex st v).s2r = st.s2r
      exact removeVertex_s2r st v
    have e3 : ({ removeVertex st v with s1 := (removeVertex st v).s1 ++ [v] }).s1 =
        st.s1 ++ [v] := by
      show (removeVertex st v).s1 ++ [v] = st.s1 ++ [v]
      rw [removeVertex_s1]
    rw [e1, e2, e3]
    exact (perm_shift_s1 _ _ _ _ _ hvQ hrm).trans h

theorem pickBin_spec (V : List Nat) (hV : V.Nodup) (st : SchedState)
    (h : schedInv V st) :
    schedInv V (pickBin st) ∧ totalQ (pickBin st) ≤ totalQ st ∧
      (binsFlat st.bins ≠ [] → totalQ (pickBin st) < totalQ st) := by
  have e : pickBin st = pickBinFrom { st with bins := sortBinsDesc st.bins } := rfl
  rw [e]
  have hQ : (allQueued { st with bins := sortBinsDesc st.bins }).Perm (allQueued st) := by
    show ((st.sinksQ ++ st.sourcesQ) ++ binsFlat (sortBinsDesc st.bins)).Perm
      ((st.sinksQ ++ st.sourcesQ) ++ binsFlat st.bins)
    exact (sortBinsDesc_flat_perm st.bins).append_left _
  have hInv' : schedInv V { st with bins := sortBinsDesc st.bins } := by
    unfold schedInv at h ⊢
    exact ((hQ.append_right _).append_right _).trans h
  obtain ⟨p1, p2, p3⟩ := pickBinFrom_spec V hV { st with bins := sortBinsDesc st.bins } hInv'
  have hlen : totalQ { st with bins := sortBinsDesc st.bins } = totalQ st := hQ.length_eq
  refine ⟨p1, by omega, fun hne => ?_⟩
  have hflat' : binsFlat (sortBinsDesc st.bins) ≠ [] := by
    intro hh
    apply hne
    have := sortBinsDesc_flat_perm st.bins
    rw [hh] at this
    exact this.symm.eq_nil
  have := p3 hflat'
  omega

theorem scheduleLoopF_spec (V : List Nat) (hV : V.Nodup) :
    ∀ (fuel : Nat) (st : SchedState), schedInv V st →
      schedInv V (scheduleLoopF fuel st) ∧
      (totalQ st < fuel → totalQ (scheduleLoopF fuel st) = 0) := by
  intro fuel
  induction fuel with
  | zero =>
    intro st h
    exact ⟨h, fun hlt => absurd hlt (Nat.not_lt_zero _)⟩
  | succ fuel ih =>
    intro st h
    by_cases h0 : totalQ st = 0
    · have e : scheduleLoopF (fuel + 1) st = st := by simp [scheduleLoopF, h0]
      rw [e]
      exact ⟨h, fun _ => h0⟩
    · have e : scheduleLoopF (fuel + 1) st =
          scheduleLoopF fuel (pickBin (drainSources (drainSinks st))) := by
        simp [scheduleLoopF, h0]
      obtain ⟨hA1, hA2, hA3, hA4⟩ := drainSinks_spec V hV st h
      obtain ⟨hB1, hB2, hB3, hB4⟩ := drainSources_spec V hV _ hA1
      obtain ⟨hC1, hC2, hC3⟩ := pickBin_spec V hV _ hB1
      have hstrict : totalQ (pickBin (drainSources (drainSinks st))) < totalQ st := by
        by_cases hs : st.sinksQ = []
        · have eA : drainSinks st = st := drainSinksF_of_empty _ st hs
          by_cases hs2 : st.sourcesQ = []
          · have eB : drainSources st = st := drainSourcesF_of_empty _ st hs2
            have hflat : binsFlat st.bins ≠ [] := by
              intro hh
              apply h0
              unfold totalQ allQueued
              rw [hs, hs2, hh]
              rfl
            have := hC3
            rw [eA, eB] at this ⊢
            have h1 := this hflat
            omega
          · have h1 := hB4 (by rw [eA]; exact hs2)
            have eAlen : totalQ (drainSinks st) = totalQ st := by rw [eA]
            omega
        · have h1 := hA4 hs
          omega
      obtain ⟨ih1, ih2⟩ := ih (pickBin (drainSources (drainSinks st))) hC1
      rw [e]
      exact ⟨ih1, fun hlt => ih2 (by omega)⟩

theorem foldl_relink_s1 (l : List Nat) :
    ∀ st : SchedState, (l.foldl relink st).s1 = st.s1 := by
  induction l with
  | nil => intro st; rfl
  | cons v rest ih => intro st; rw [List.foldl_cons, ih, relink_s1]

theorem foldl_relink_s2r (l : List Nat) :
    ∀ st : SchedState, (l.foldl relink st).s2r = st.s2r := by
  induction l with
  | nil => intro st; rfl
  | cons v rest ih => intro st; rw [List.foldl_cons, ih, relink_s2r]

theorem foldl_relink_allQueued (l : List Nat) :
    ∀ st : SchedState, (allQueued (l.foldl relink st)).Perm (l ++ allQueued st) := by
  induction l with
  | nil => intro st; exact List.Perm.refl _
  | cons v rest ih =>
    intro st
    have h1 := ih (relink st v)
    have h2 := (relink_perm st v).append_left rest
    have h3 : (rest ++ (v :: allQueued st)).Perm (v :: (rest ++ allQueued st)) :=
      List.perm_middle
    exact (h1.trans h2).trans h3

/-- C5 (confirmed): for every input graph whose vertices are distinct (as the
fresh vertices created by Scheduler::add are), Scheduler::schedule returns a
permutation of the vertex list — every added vertex is scheduled exactly
once — and the returned sequence is s1 followed by the reverse of s2r as
built by the loop that drains sinks into s2r, sources into s1, and otherwise
moves the front vertex of the non-empty bin with the greatest delta key into
s1. -/
theorem c5_scheduler_schedule (g : SchedGraph) (hnd : g.vertices.Nodup) :
    (scheduler_schedule g).Perm g.vertices ∧
    scheduler_schedule g =
      (scheduleLoop (scheduleInit g)).s1 ++ (scheduleLoop (scheduleInit g)).s2r.reverse := by
  have hs1 : (scheduleInit g).s1 = [] := foldl_relink_s1 g.vertices _
  have hs2r : (scheduleInit g).s2r = [] := foldl_relink_s2r g.vertices _
  have hinit : schedInv g.vertices (scheduleInit g) := by
    unfold schedInv
    rw [hs1, hs2r, List.append_nil, List.append_nil]
    have h1 := foldl_relink_allQueued g.vertices
      ⟨g.preds, g.succs, [], [], [], [], []⟩
    have h2 : allQueued ⟨g.preds, g.succs, [], [], [], [], []⟩ = ([] : List Nat) := rfl
    rw [h2, List.append_nil] at h1
    exact h1
  obtain ⟨hfin, hzero⟩ :=
    scheduleLoopF_spec g.vertices hnd (totalQ (scheduleInit g) + 1) (scheduleInit g) hinit
  have hfin' : ((allQueued (scheduleLoop (scheduleInit g)) ++
      (scheduleLoop (scheduleInit g)).s1) ++
      (scheduleLoop (scheduleInit g)).s2r).Perm g.vertices := hfin
  have h0 : totalQ (scheduleLoop (scheduleInit g)) = 0 := hzero (by omega)
  have hempty : allQueued (scheduleLoop (scheduleInit g)) = [] :=
    List.length_eq_zero.mp h0
  rw [hempty] at hfin'
  constructor
  · show ((scheduleLoop (scheduleInit g)).s1 ++
      (scheduleLoop (scheduleInit g)).s2r.reverse).Perm g.vertices
    have hrev : ((scheduleLoop (scheduleInit g)).s1 ++
        (scheduleLoop (scheduleInit g)).s2r.reverse).Perm
        ((scheduleLoop (scheduleInit g)).s1 ++ (scheduleLoop (scheduleInit g)).s2r) :=
      (List.reverse_perm _).append_left _
    have hfin'' : ((scheduleLoop (scheduleInit g)).s1 ++
        (scheduleLoop (scheduleInit g)).s2r).Perm g.vertices := by
      simpa using hfin'
    exact hrev.trans hfin''
  · rfl

def c5graph : SchedGraph :=
  ⟨[0, 1], fun n => if n = 1 then [0] else [], fun n => if n = 0 then [1] else []⟩

/-- Witness for C5 at a concrete two-vertex graph with one edge. -/
theorem c5_scheduler_schedule_witness :
    ([0, 1] : List Nat).Nodup ∧
    ((scheduler_schedule c5graph).Perm c5graph.vertices ∧
      scheduler_schedule c5graph =
        (scheduleLoop (scheduleInit c5graph)).s1 ++
          (scheduleLoop (scheduleInit c5graph)).s2r.reverse) :=
  ⟨by decide, c5_scheduler_schedule c5graph (by decide)⟩

theorem scheduler_schedule_c5graph_eval : scheduler_schedule c5graph = [0, 1] := by decide

/-! ## Components E and H: per-module analysis
(CxxrtlWorker::analyze_design, lines 1400-1578) -/

/-- A module: wires, connections, cells, processes, and the module sig-map.
Modelled from the spec: the sig-map canonicalization itself lives in kernel
code (kernel/sigtools.h) outside this backend; following the spec ("a sig-map
per module provides chunk canonicalization") it is represented as a
per-module mapping on wire bits, the identity when no aliases exist. -/
structure RModule where
  wires : List RWire
  connections : List (SigSpec × SigSpec)
  cells : List RCell
  processes : List RProcess
  sigmap_bit : (Nat × Nat) → (Nat × Nat)

/-- Apply the module sig-map to a signal; only single-bit wire signals (the
shape register_edge_signal accepts) are canonicalized. -/
def sigmap_sig (m : RModule) (s : SigSpec) : SigSpec :=
  match s with
  | [c] =>
    match c.wire with
    | some w =>
      if c.width = 1 then
        [⟨some (m.sigmap_bit (w, c.offset)).1, (m.sigmap_bit (w, c.offset)).2, 1⟩]
      else s
    | none => s
  | _ => s

def default_cell : RCell :=
  ⟨[], CellType.c_mem, [], true, false, true, true, true, true, false, 0, 0, []⟩

/-- Accumulated state of the first cell loop of analyze_design. -/
structure CellScan where
  fg : FlowGraph
  sync : SyncState
  writable_memories : List Nat
  memwr_per_domain : List (((Nat × Nat) × Nat) × List Nat)
  memrw_cell_nodes : List (Nat × Nat)

/-- The dff part of the edge registration for one cell (lines 1421-1427):
dff-family cells whose CLK port is a wire register an edge signal of the
clock polarity. A constant clock registers nothing. -/
def dff_edge_registration (m : RModule) (sync : SyncState) (cell : RCell) : SyncState :=
  if cell.ctype = CellType.c_dff ∨ cell.ctype = CellType.c_dffe ∨
      cell.ctype = CellType.c_adff ∨ cell.ctype = CellType.c_dffsr then
    match getPort cell PortName.CLK with
    | some clk =>
      if (sig_as_wire m.wires clk).isSome then
        register_edge_signal m.wires sync (sigmap_sig m clk)
          (if cell.clk_polarity then SyncType.STp else SyncType.STn)
      else sync
    | none => sync
  else sync

/-- The memory-port part of the edge registration (lines 1429-1434):
clocked memory ports with a wire clock register likewise. -/
def mem_edge_registration (m : RModule) (sync : SyncState) (cell : RCell) : SyncState :=
  if (cell.ctype = CellType.c_memrd ∨ cell.ctype = CellType.c_memwr) ∧ cell.clk_enable then
    match getPort cell PortName.CLK with
    | some clk =>
      if (sig_as_wire m.wires clk).isSome then
        register_edge_signal m.wires sync (sigmap_sig m clk)
          (if cell.clk_polarity then SyncType.STp else SyncType.STn)
      else sync
    | none => sync
  else sync

/-- The full edge registration for one cell (lines 1420-1434). -/
def cell_edge_registration (m : RModule) (sync : SyncState) (cell : RCell) : SyncState :=
  mem_edge_registration m (dff_edge_registration m sync cell) cell

/-- Whether a clocked memory-port cell has a wire clock. -/
def cell_clk_is_wire (m : RModule) (cell : RCell) : Bool :=
  match getPort cell PortName.CLK with
  | some clk => (sig_as_wire m.wires clk).isSome
  | none => false

/-- Body of the first cell loop (lines 1417-1450): add the flow node, do the
edge registration, remember the nodes of memory ports, mark memories with a
write port writable, and group clocked write ports by (clock bit, memory). -/
def scan_cell (m : RModule) (st : CellScan) (icell : Nat × RCell) : CellScan :=
  let node := st.fg.nodes.length
  let fg := add_node_cell m.wires st.fg icell.1 icell.2
  let sync := cell_edge_registration m st.sync icell.2
  let memrw :=
    if icell.2.ctype = CellType.c_memrd ∨ icell.2.ctype = CellType.c_memwr then
      assocSet st.memrw_cell_nodes icell.1 node
    else st.memrw_cell_nodes
  let writable :=
    if icell.2.ctype = CellType.c_memwr then poolInsert st.writable_memories icell.2.memid
    else st.writable_memories
  let domain :=
    if icell.2.ctype = CellType.c_memwr ∧ icell.2.clk_enable ∧ cell_clk_is_wire m icell.2 then
      match getPort icell.2 PortName.CLK with
      | some clk =>
        dictPoolInsert st.memwr_per_domain (m.sigmap_bit (sig_bit0 clk), icell.2.memid) icell.1
      | none => st.memwr_per_domain
    else st.memwr_per_domain
  ⟨fg, sync, writable, domain, memrw⟩

def scan_cells (m : RModule) (st : CellScan) : CellScan :=
  m.cells.enum.foldl (scan_cell m) st

/-- The second cell loop (lines 1451-1466): every transparent clocked read
port records the write ports of its (clock bit, memory) domain and adds
explicit uses of their EN, ADDR and DATA signals to its own flow node. -/
def scan_transparent (m : RModule) (st : CellScan) : FlowGraph × List (Nat × List Nat) :=
  m.cells.enum.foldl (fun acc icell =>
    if icell.2.ctype = CellType.c_memrd ∧ icell.2.clk_enable ∧
        cell_clk_is_wire m icell.2 ∧ icell.2.transparent then
      match getPort icell.2 PortName.CLK with
      | some clk =>
        let group := dictGet st.memwr_per_domain (m.sigmap_bit (sig_bit0 clk), icell.2.memid)
        let node := (assocLookup st.memrw_cell_nodes icell.1).getD 0
        group.foldl (fun acc2 iwr =>
          let wrcell := m.cells.getD iwr default_cell
          let tfor := dictPoolInsert acc2.2 icell.1 iwr
          let fg := add_uses acc2.1 node ((getPort wrcell PortName.EN).getD [])
          let fg := add_uses fg node ((getPort wrcell PortName.ADDR).getD [])
          let fg := add_uses fg node ((getPort wrcell PortName.DATA).getD [])
          (fg, tfor)) acc
      | none => acc
    else acc) (st.fg, [])

/-- The process loop (lines 1468-1494): add the flow node and register edge
sync rules. Level sync rules need no handling; init rules are resolved by
proc_init before analysis (log_assert) and a global-clock rule is a command
error, so neither reaches a completed analysis. -/
def scan_processes (m : RModule) (fg : FlowGraph) (sync : SyncState) :
    FlowGraph × SyncState :=
  m.processes.enum.foldl (fun acc iproc =>
    let fg := add_node_process m.wires acc.1 iproc.1 iproc.2
    let sync := iproc.2.syncs.foldl (fun sync srule =>
      match srule.type with
      | SyncType.STp => register_edge_signal m.wires sync (sigmap_sig m srule.signal) srule.type
      | SyncType.STn => register_edge_signal m.wires sync (sigmap_sig m srule.signal) srule.type
      | SyncType.STe => register_edge_signal m.wires sync (sigmap_sig m srule.signal) srule.type
      | _ => sync) acc.2
    (fg, sync)) (fg, sync)

def wire_begins_dollar (wire : RWire) : Bool := wire.name.headD 0 = 36

def wire_begins_backslash (wire : RWire) : Bool := wire.name.headD 0 = 92

/-- The elision loop (lines 1496-1505): a wire is elided iff it is
flow-elidable, not a port, not marked keep, its visibility is enabled by the
flags, and it is not a sync wire; the single defining node is recorded. -/
def compute_elided (flags : OptFlags) (m : RModule) (fg : FlowGraph)
    (sync : SyncState) : List (Nat × Nat) :=
  (List.range m.wires.length).foldl (fun el w =>
    let wire := m.wires.getD w default_wire
    if ¬ flow_is_elidable fg w then el
    else if wire.port_id ≠ 0 then el
    else if wire.keep then el
    else if wire_begins_dollar wire ∧ ¬ flags.elide_internal then el
    else if wire_begins_backslash wire ∧ ¬ flags.elide_public then el
    else if w ∈ sync.sync_wires then el
    else assocSet el w ((dictGet fg.wire_defs w).headD 0)) []

/-- The cell_wire_defs map (lines 1510-1513): for every cell connection whose
signal is a whole elided wire, record the port name under (cell, wire). -/
def compute_cell_wire_defs (m : RModule) (elided : List (Nat × Nat)) :
    List ((Nat × Nat) × PortName) :=
  m.cells.enum.foldl (fun cwd icell =>
    icell.2.connections.foldl (fun cwd conn =>
      match sig_as_wire m.wires conn.2 with
      | some w =>
        if (assocLookup elided w).isSome then assocSet cwd (icell.1, w) conn.1 else cwd
      | none => cwd) cwd) []

/-- The node_defs dict (lines 1515-1518), built by iterating wire_defs in
insertion order. -/
def compute_node_defs (fg : FlowGraph) : List (Nat × List Nat) :=
  fg.wire_defs.foldl (fun nd wd =>
    wd.2.foldl (fun nd n => dictPoolInsert nd n wd.1) nd) []

/-- The scheduler graph (lines 1520-1532): one vertex per flow node, an edge
from each defining node to each node using one of its defined wires. -/
def build_sched_graph (fg : FlowGraph) (node_defs : List (Nat × List Nat)) : SchedGraph :=
  let adj := node_defs.foldl (fun adj nd =>
    nd.2.foldl (fun adj w =>
      (dictGet fg.wire_uses w).foldl (fun adj succ =>
        (updF adj.1 succ (poolInsert (adj.1 succ) nd.1),
         updF adj.2 nd.1 (poolInsert (adj.2 nd.1) succ))) adj) adj)
    (fun _ => ([] : List Nat), fun _ => ([] : List Nat))
  ⟨List.range fg.nodes.length, adj.1, adj.2⟩

/-- One iteration of the feedback loop (lines 1537-1553): the node is marked
evaluated, then every wire it defines whose use nodes include an already
evaluated node becomes a feedback wire and is erased from elided_wires. -/
def feedback_step (nd wu : List (Nat × List Nat))
    (acc : List Nat × List Nat × List (Nat × Nat)) (v : Nat) :
    List Nat × List Nat × List (Nat × Nat) :=
  let ev := poolInsert acc.1 v
  let step := (dictGet nd v).foldl (fun acc2 w =>
    (dictGet wu w).foldl (fun acc3 succ =>
      if succ ∈ ev then (poolInsert acc3.1 w, assocErase acc3.2 w) else acc3) acc2)
    (acc.2.1, acc.2.2)
  (ev, step.1, step.2)

/-- The feedback loop over the evaluation order, returning the evaluated
pool, the feedback wire pool and the pruned elided_wires map. -/
def compute_feedback (nd wu : List (Nat × List Nat)) (eo : List Nat)
    (el0 : List (Nat × Nat)) : List Nat × List Nat × List (Nat × Nat) :=
  eo.foldl (feedback_step nd wu) ([], [], el0)

/-- The localization loop (lines 1563-1573): a wire is localized iff it is
not a feedback wire, not a port, not marked keep, its visibility is enabled,
it is not a sync wire, and it has exactly one flow def. -/
def compute_localized (flags : OptFlags) (m : RModule) (fg : FlowGraph)
    (sync : SyncState) (feedback : List Nat) : List Nat :=
  (List.range m.wires.length).foldl (fun lw w =>
    let wire := m.wires.getD w default_wire
    if w ∈ feedback then lw
    else if wire.port_id ≠ 0 then lw
    else if wire.keep then lw
    else if wire_begins_dollar wire ∧ ¬ flags.localize_internal then lw
    else if wire_begins_backslash wire ∧ ¬ flags.localize_public then lw
    else if w ∈ sync.sync_wires then lw
    else if (dictGet fg.wire_defs w).length ≠ 1 then lw
    else poolInsert lw w) []

/-- Everything analyze_design computes for one module. -/
structure AnalyzeResult where
  flow : FlowGraph
  sync : SyncState
  writable_memories : List Nat
  transparent_for : List (Nat × List Nat)
  elided_wires : List (Nat × Nat)
  cell_wire_defs : List ((Nat × Nat) × PortName)
  node_defs : List (Nat × List Nat)
  eval_order : List Nat
  feedback_wires : List Nat
  localized_wires : List Nat

def analyze_flow0 (m : RModule) : FlowGraph :=
  m.connections.foldl (fun fg conn => add_node_connect m.wires fg conn) empty_flow

def analyze_cellscan (m : RModule) : CellScan :=
  scan_cells m ⟨analyze_flow0 m, ⟨[], []⟩, [], [], []⟩

def analyze_fg1 (m : RModule) : FlowGraph := (scan_transparent m (analyze_cellscan m)).1

def analyze_tfor (m : RModule) : List (Nat × List Nat) :=
  (scan_transparent m (analyze_cellscan m)).2

def analyze_fg2 (m : RModule) : FlowGraph :=
  (scan_processes m (analyze_fg1 m) (analyze_cellscan m).sync).1

def analyze_sync (m : RModule) : SyncState :=
  (scan_processes m (analyze_fg1 m) (analyze_cellscan m).sync).2

def analyze_elided0 (flags : OptFlags) (m : RModule) : List (Nat × Nat) :=
  compute_elided flags m (analyze_fg2 m) (analyze_sync m)

def analyze_node_defs (m : RModule) : List (Nat × List Nat) :=
  compute_node_defs (analyze_fg2 m)

def analyze_graph (m : RModule) : SchedGraph :=
  build_sched_graph (analyze_fg2 m) (analyze_node_defs m)

def analyze_eval_order (m : RModule) : List Nat :=
  scheduler_schedule (analyze_graph m)

def analyze_fb (flags : OptFlags) (m : RModule) :
    List Nat × List Nat × List (Nat × Nat) :=
  compute_feedback (analyze_node_defs m) (analyze_fg2 m).wire_uses
    (analyze_eval_order m) (analyze_elided0 flags m)

/-- CxxrtlWorker::analyze_design restricted to one module: build the flow
graph from connections, cells and processes, register edge signals, compute
elision eligibility, schedule, derive feedback wires (erasing them from
elided_wires), and compute localization. -/
def analyze_module (flags : OptFlags) (m : RModule) : AnalyzeResult :=
  ⟨analyze_fg2 m, analyze_sync m, (analyze_cellscan m).writable_memories, analyze_tfor m,
   (analyze_fb flags m).2.2, compute_cell_wire_defs m (analyze_elided0 flags m),
   analyze_node_defs m, analyze_eval_order m, (analyze_fb flags m).2.1,
   compute_localized flags m (analyze_fg2 m) (analyze_sync m) (analyze_fb flags m).2.1⟩

/-! ### Concrete modules for the analysis claims -/

def sigOfWire (w width : Nat) : SigSpec := [⟨some w, 0, width⟩]

def constSig (width : Nat) : SigSpec := [⟨none, 0, width⟩]

def wire_ix : RWire := ⟨[36, 120], 1, 0, false⟩

def wire_iy : RWire := ⟨[36, 121], 1, 0, false⟩

def wire_iw : RWire := ⟨[36, 119], 1, 0, false⟩

def wire_iw2 : RWire := ⟨[36, 119], 2, 0, false⟩

def wire_iy2 : RWire := ⟨[36, 121], 2, 0, false⟩

def flagsO2 : OptFlags := ⟨true, false, true, false, false⟩

def flagsAll : OptFlags := ⟨true, true, true, true, true⟩

/-- Internal wires x (driven by a constant, read once) and y := x. -/
def M1 : RModule :=
  ⟨[wire_ix, wire_iy],
   [(sigOfWire 1 1, sigOfWire 0 1), (sigOfWire 0 1, constSig 1)], [], [], id⟩

/-- One internal wire driven by itself: connect w = w. -/
def M2 : RModule := ⟨[wire_iw], [(sigOfWire 0 1, sigOfWire 0 1)], [], [], id⟩

/-- A two-bit connection y = \x7b w[1], w[0] \x7d: one node uses w in two chunks. -/
def M3 : RModule :=
  ⟨[wire_iw2, wire_iy2],
   [(sigOfWire 1 2, [⟨some 0, 0, 1⟩, ⟨some 0, 1, 1⟩])], [], [], id⟩

/-- Counterexample to C1: at optimization level 2 the wire x of M1 ends up
in BOTH elided_wires and localized_wires, because the localization loop
(lines 1563-1573) never consults elided_wires. -/
theorem c1_counterexample :
    (assocLookup (analyze_module flagsO2 M1).elided_wires 0).isSome = true ∧
    0 ∈ (analyze_module flagsO2 M1).localized_wires := by
  decide

/-- Counterexample to C3: wire 0 of M3 is used by exactly ONE flow node, yet
because that node mentions it in two chunks, wire_use_elidable is false;
add_uses counts use chunks, not use nodes. -/
theorem c3_counterexample :
    (dictGet (analyze_module flagsAll M3).flow.wire_uses 0).length = 1 ∧
    assocLookup (analyze_module flagsAll M3).flow.wire_use_elidable 0 = some false := by
  decide

/-- Counterexample to C4: in M2 the single node both defines and uses wire 0,
so wire 0 is marked feedback although its defining node is not STRICTLY later
in the evaluation order than any node using it (the order has length 1, so no
strict pair of positions exists at all). The insert into `evaluated` at line
1544 precedes the use check, making the comparison non-strict. -/
theorem c4_counterexample :
    0 ∈ (analyze_module flagsAll M2).feedback_wires ∧
    (analyze_module flagsAll M2).eval_order = [0] ∧
    ∀ i j : Nat, i < j → j < (analyze_module flagsAll M2).eval_order.length →
      ¬ (0 ∈ dictGet (analyze_module flagsAll M2).node_defs
            ((analyze_module flagsAll M2).eval_order.getD j 0) ∧
         (analyze_module flagsAll M2).eval_order.getD i 0 ∈
            dictGet (analyze_module flagsAll M2).flow.wire_uses 0) := by
  refine ⟨by decide, by decide, ?_⟩
  intro i j hij hj _
  have hlen : (analyze_module flagsAll M2).eval_order.length = 1 := by decide
  omega

/-! ### C1: feedback wires are erased from elided_wires -/

theorem feedback_fold_step (ev : List Nat) (wu : List (Nat × List Nat))
    (p : List Nat × List (Nat × Nat)) (w : Nat)
    (hp : ∀ x ∈ p.1, assocLookup p.2 x = none) :
    ∀ x ∈ ((dictGet wu w).foldl (fun acc3 succ =>
        if succ ∈ ev then (poolInsert acc3.1 w, assocErase acc3.2 w) else acc3) p).1,
      assocLookup ((dictGet wu w).foldl (fun acc3 succ =>
        if succ ∈ ev then (poolInsert acc3.1 w, assocErase acc3.2 w) else acc3) p).2
        x = none := by
  refine foldl_preserve
    (fun q : List Nat × List (Nat × Nat) => ∀ x ∈ q.1, assocLookup q.2 x = none)
    (fun acc3 succ =>
      if succ ∈ ev then (poolInsert acc3.1 w, assocErase acc3.2 w) else acc3)
    ?_ (dictGet wu w) p hp
  intro q succ hq
  show ∀ x ∈ (if succ ∈ ev then (poolInsert q.1 w, assocErase q.2 w) else q).1,
      assocLookup (if succ ∈ ev then (poolInsert q.1 w, assocErase q.2 w) else q).2
        x = none
  by_cases hs : succ ∈ ev
  · rw [if_pos hs]
    intro x hx
    have hx' : x ∈ poolInsert q.1 w := hx
    show assocLookup (assocErase q.2 w) x = none
    rw [assocLookup_assocErase]
    by_cases hxw : x = w
    · rw [if_pos hxw]
    · rw [if_neg hxw]
      rcases (mem_poolInsert _ _ _).mp hx' with hh | hh
      · exact hq x hh
      · exact absurd hh hxw
  · rw [if_neg hs]
    exact hq

theorem feedback_fold_wires (ev : List Nat) (wu : List (Nat × List Nat)) (ws : List Nat)
    (p : List Nat × List (Nat × Nat))
    (hp : ∀ x ∈ p.1, assocLookup p.2 x = none) :
    ∀ x ∈ (ws.foldl (fun acc2 w =>
        (dictGet wu w).foldl (fun acc3 succ =>
          if succ ∈ ev then (poolInsert acc3.1 w, assocErase acc3.2 w) else acc3) acc2)
        p).1,
      assocLookup (ws.foldl (fun acc2 w =>
        (dictGet wu w).foldl (fun acc3 succ =>
          if succ ∈ ev then (poolInsert acc3.1 w, assocErase acc3.2 w) else acc3) acc2)
        p).2 x = none := by
  refine foldl_preserve
    (fun q : List Nat × List (Nat × Nat) => ∀ x ∈ q.1, assocLookup q.2 x = none)
    (fun acc2 w =>
      (dictGet wu w).foldl (fun acc3 succ =>
        if succ ∈ ev then (poolInsert acc3.1 w, assocErase acc3.2 w) else acc3) acc2)
    ?_ ws p hp
  intro q w hq
  exact feedback_fold_step ev wu q w hq

theorem compute_feedback_not_elided (nd wu : List (Nat × List Nat)) (eo : List Nat)
    (el0 : List (Nat × Nat)) :
    ∀ x ∈ (compute_feedback nd wu eo el0).2.1,
      assocLookup (compute_feedback nd wu eo el0).2.2 x = none := by
  unfold compute_feedback
  refine foldl_preserve
    (fun acc : List Nat × List Nat × List (Nat × Nat) =>
      ∀ x ∈ acc.2.1, assocLookup acc.2.2 x = none)
    (feedback_step nd wu) ?_ eo ([], [], el0) ?_
  · intro acc v hacc
    show ∀ x ∈ (feedback_step nd wu acc v).2.1,
        assocLookup (feedback_step nd wu acc v).2.2 x = none
    unfold feedback_step
    show ∀ x ∈ ((dictGet nd v).foldl (fun acc2 w =>
        (dictGet wu w).foldl (fun acc3 succ =>
          if succ ∈ poolInsert acc.1 v then (poolInsert acc3.1 w, assocErase acc3.2 w)
          else acc3) acc2) (acc.2.1, acc.2.2)).1,
      assocLookup ((dictGet nd v).foldl (fun acc2 w =>
        (dictGet wu w).foldl (fun acc3 succ =>
          if succ ∈ poolInsert acc.1 v then (poolInsert acc3.1 w, assocErase acc3.2 w)
          else acc3) acc2) (acc.2.1, acc.2.2)).2 x = none
    exact feedback_fold_wires (poolInsert acc.1 v) wu (dictGet nd v)
      (acc.2.1, acc.2.2) hacc
  · intro x hx
    exact absurd hx (List.not_mem_nil x)

/-- C1 (corrected): every wire marked as a feedback wire by analyze_module is
erased from elided_wires, so feedback wires and elided wires are disjoint;
the claimed exclusivity of elided_wires and localized_wires, however, does
not hold (see the counterexample c1_counterexample). -/
theorem c1_feedback_not_elided (flags : OptFlags) (m : RModule) (w : Nat)
    (hw : w ∈ (analyze_module flags m).feedback_wires) :
    assocLookup (analyze_module flags m).elided_wires w = none :=
  compute_feedback_not_elided (analyze_node_defs m) (analyze_fg2 m).wire_uses
    (analyze_eval_order m) (analyze_elided0 flags m) w hw

/-- Witness for C1 at M2, whose single wire is a feedback wire. -/
theorem c1_feedback_not_elided_witness :
    0 ∈ (analyze_module flagsAll M2).feedback_wires ∧
    assocLookup (analyze_module flagsAll M2).elided_wires 0 = none :=
  ⟨by decide, c1_feedback_not_elided flagsAll M2 0 (by decide)⟩

/-! ### C4: exact characterization of feedback wires -/

theorem mem_take_iff_getD (l : List Nat) :
    ∀ (k u : Nat), u ∈ l.take k ↔ ∃ i, i < k ∧ i < l.length ∧ l.getD i 0 = u := by
  induction l with
  | nil =>
    intro k u
    simp
  | cons a t ih =>
    intro k u
    cases k with
    | zero => simp
    | succ k' =>
      show u ∈ a :: t.take k' ↔ _
      rw [List.mem_cons, ih]
      constructor
      · rintro (rfl | ⟨i, h1, h2, h3⟩)
        · exact ⟨0, Nat.succ_pos _, Nat.succ_pos _, rfl⟩
        · refine ⟨i + 1, Nat.succ_lt_succ h1, ?_, h3⟩
          show i + 1 < t.length + 1
          exact Nat.succ_lt_succ h2
      · rintro ⟨i, h1, h2, h3⟩
        cases i with
        | zero => exact Or.inl h3.symm
        | succ i' =>
          have h2' : i' < t.length := Nat.lt_of_succ_lt_succ h2
          exact Or.inr ⟨i', Nat.lt_of_succ_lt_succ h1, h2', h3⟩

theorem feedback_inner_mem (ev : List Nat) (w : Nat) (succs : List Nat) :
    ∀ (acc : List Nat × List (Nat × Nat)) (x : Nat),
      (x ∈ (succs.foldl (fun acc3 succ =>
          if succ ∈ ev then (poolInsert acc3.1 w, assocErase acc3.2 w) else acc3)
        acc).1 ↔
      (x ∈ acc.1 ∨ (x = w ∧ ∃ u ∈ succs, u ∈ ev))) := by
  induction succs with
  | nil =>
    intro acc x
    simp
  | cons s rest ih =>
    intro acc x
    simp only [List.foldl_cons]
    by_cases hs : s ∈ ev
    · rw [if_pos hs, ih]
      show x ∈ poolInsert acc.1 w ∨ _ ↔ _
      rw [mem_poolInsert]
      constructor
      · rintro ((hx | rfl) | ⟨rfl, u, hu, huev⟩)
        · exact Or.inl hx
        · exact Or.inr ⟨rfl, s, List.mem_cons_self _ _, hs⟩
        · exact Or.inr ⟨rfl, u, List.mem_cons_of_mem _ hu, huev⟩
      · rintro (hx | ⟨rfl, u, hu, huev⟩)
        · exact Or.inl (Or.inl hx)
        · rcases List.mem_cons.mp hu with rfl | hu'
          · exact Or.inl (Or.inr rfl)
          · exact Or.inr ⟨rfl, u, hu', huev⟩
    · rw [if_neg hs, ih]
      constructor
      · rintro (hx | ⟨rfl, u, hu, huev⟩)
        · exact Or.inl hx
        · exact Or.inr ⟨rfl, u, List.mem_cons_of_mem _ hu, huev⟩
      · rintro (hx | ⟨rfl, u, hu, huev⟩)
        · exact Or.inl hx
        · rcases List.mem_cons.mp hu with rfl | hu'
          · exact absurd hs (fun hs' => hs' huev)
          · exact Or.inr ⟨rfl, u, hu', huev⟩

theorem feedback_mid_mem (ev : List Nat) (wu : List (Nat × List Nat)) (ws : List Nat) :
    ∀ (acc : List Nat × List (Nat × Nat)) (x : Nat),
      (x ∈ (ws.foldl (fun acc2 w =>
          (dictGet wu w).foldl (fun acc3 succ =>
            if succ ∈ ev then (poolInsert acc3.1 w, assocErase acc3.2 w) else acc3) acc2)
        acc).1 ↔
      (x ∈ acc.1 ∨ (x ∈ ws ∧ ∃ u ∈ dictGet wu x, u ∈ ev))) := by
  induction ws with
  | nil =>
    intro acc x
    simp
  | cons w rest ih =>
    intro acc x
    simp only [List.foldl_cons]
    rw [ih, feedback_inner_mem]
    constructor
    · rintro ((hx | ⟨rfl, hex⟩) | ⟨hxr, hex⟩)
      · exact Or.inl hx
      · exact Or.inr ⟨List.mem_cons_self _ _, hex⟩
      · exact Or.inr ⟨List.mem_cons_of_mem _ hxr, hex⟩
    · rintro (hx | ⟨hxm, hex⟩)
      · exact Or.inl (Or.inl hx)
      · rcases List.mem_cons.mp hxm with rfl | hxr
        · exact Or.inl (Or.inr ⟨rfl, hex⟩)
        · exact Or.inr ⟨hxr, hex⟩

theorem feedback_outer_mem (nd wu : List (Nat × List Nat)) (eo : List Nat) :
    ∀ (ev0 fb0 : List Nat) (el0 : List (Nat × Nat)) (x : Nat),
      (x ∈ (eo.foldl (feedback_step nd wu) (ev0, fb0, el0)).2.1 ↔
      (x ∈ fb0 ∨ ∃ j, j < eo.length ∧ x ∈ dictGet nd (eo.getD j 0) ∧
        ∃ u ∈ dictGet wu x, (u ∈ ev0 ∨ u ∈ eo.take (j + 1)))) := by
  induction eo with
  | nil =>
    intro ev0 fb0 el0 x
    simp
  | cons v rest ih =>
    intro ev0 fb0 el0 x
    rw [List.foldl_cons]
    have estep : feedback_step nd wu (ev0, fb0, el0) v =
        (poolInsert ev0 v,
         ((dictGet nd v).foldl (fun acc2 w =>
           (dictGet wu w).foldl (fun acc3 succ =>
             if succ ∈ poolInsert ev0 v then (poolInsert acc3.1 w, assocErase acc3.2 w)
             else acc3) acc2) (fb0, el0)).1,
         ((dictGet nd v).foldl (fun acc2 w =>
           (dictGet wu w).foldl (fun acc3 succ =>
             if succ ∈ poolInsert ev0 v then (poolInsert acc3.1 w, assocErase acc3.2 w)
             else acc3) acc2) (fb0, el0)).2) := rfl
    rw [estep, ih, feedback_mid_mem]
    constructor
    · rintro ((hfb | ⟨hnd, u, hu, huev⟩) | ⟨j, hj, hnd, u, hu, hev⟩)
      · exact Or.inl hfb
      · refine Or.inr ⟨0, Nat.succ_pos _, hnd, u, hu, ?_⟩
        rcases (mem_poolInsert _ _ _).mp huev with h | h
        · exact Or.inl h
        · exact Or.inr (List.mem_cons.mpr (Or.inl h))
      · refine Or.inr ⟨j + 1, Nat.succ_lt_succ hj, hnd, u, hu, ?_⟩
        rcases hev with h | h
        · rcases (mem_poolInsert _ _ _).mp h with h' | h'
          · exact Or.inl h'
          · exact Or.inr (List.mem_cons.mpr (Or.inl h'))
        · exact Or.inr (List.mem_cons_of_mem _ h)
    · rintro (hfb | ⟨j, hj, hnd, u, hu, hev⟩)
      · exact Or.inl (Or.inl hfb)
      · cases j with
        | zero =>
          refine Or.inl (Or.inr ⟨hnd, u, hu, ?_⟩)
          rcases hev with h | h
          · exact (mem_poolInsert _ _ _).mpr (Or.inl h)
          · have h' : u = v := List.mem_singleton.mp h
            exact (mem_poolInsert _ _ _).mpr (Or.inr h')
        | succ j' =>
          refine Or.inr ⟨j', Nat.lt_of_succ_lt_succ hj, hnd, u, hu, ?_⟩
          rcases hev with h | h
          · exact Or.inl ((mem_poolInsert _ _ _).mpr (Or.inl h))
          · rcases List.mem_cons.mp h with rfl | h'
            · exact Or.inl ((mem_poolInsert _ _ _).mpr (Or.inr rfl))
            · exact Or.inr h'

/-- C4 (corrected): a wire is a feedback wire iff some node at position j of
the evaluation order defines it while some node at position i ≤ j uses it.
The source inserts the node into `evaluated` at line 1544 BEFORE checking the
uses of its defined wires, so i = j (a node that both defines and uses the
wire) already makes it feedback; the claim required strictly i < j. -/
theorem c4_feedback_iff (flags : OptFlags) (m : RModule) (w : Nat) :
    w ∈ (analyze_module flags m).feedback_wires ↔
      ∃ i j, i ≤ j ∧ j < (analyze_module flags m).eval_order.length ∧
        w ∈ dictGet (analyze_module flags m).node_defs
            ((analyze_module flags m).eval_order.getD j 0) ∧
        (analyze_module flags m).eval_order.getD i 0 ∈
          dictGet (analyze_module flags m).flow.wire_uses w := by
  have h := feedback_outer_mem (analyze_node_defs m) (analyze_fg2 m).wire_uses
    (analyze_eval_order m) [] [] (analyze_elided0 flags m) w
  constructor
  · intro hw
    rcases h.mp hw with hfb | ⟨j, hj, hnd, u, hu, hev⟩
    · exact absurd hfb (List.not_mem_nil w)
    · rcases hev with hev | hev
      · exact absurd hev (List.not_mem_nil u)
      · obtain ⟨i, hik, hilen, hieq⟩ :=
          (mem_take_iff_getD (analyze_eval_order m) (j + 1) u).mp hev
        refine ⟨i, j, by omega, hj, hnd, ?_⟩
        show (analyze_eval_order m).getD i 0 ∈ dictGet (analyze_fg2 m).wire_uses w
        rw [hieq]
        exact hu
  · rintro ⟨i, j, hij, hj, hnd, hu⟩
    apply h.mpr
    have hlen : (analyze_module flags m).eval_order.length =
        (analyze_eval_order m).length := rfl
    refine Or.inr ⟨j, hj, hnd,
      (analyze_module flags m).eval_order.getD i 0, hu, Or.inr ?_⟩
    exact (mem_take_iff_getD (analyze_eval_order m) (j + 1) _).mpr
      ⟨i, by omega, by omega, rfl⟩

/-! ## Component G (part): wire declarations and chunk reads for elided and
localized wires (dump_wire, lines 1117-1150; dump_sigchunk, lines 536-571) -/

/-- What dump_sigchunk emits for one chunk (the optional .slice suffix does
not change the expression head). -/
inductive ChunkExpr where
  | constv (width offset : Nat)
  | elided_connect (conn : SigSpec × SigSpec)
  | elided_cell_inline (cellIdx : Nat)
  | elided_cell_port (cellIdx : Nat) (port : PortName)
  | localized_name (w : Nat)
  | wire_next (w : Nat)
  | wire_curr (w : Nat)
  | invalid
deriving DecidableEq, Repr

/-- The elided branch of dump_sigchunk (lines 543-556): inline the defining
node, which is a connection's right-hand side, an elidable cell's expression,
or a non-elidable cell's output member named by cell_wire_defs; a process
node reaches log_assert(false). -/
def elided_chunk_expr (res : AnalyzeResult) (w : Nat) : ChunkExpr :=
  match res.flow.nodes.getD ((assocLookup res.elided_wires w).getD 0)
      (FNodeData.process 0) with
  | FNodeData.connect conn => ChunkExpr.elided_connect conn
  | FNodeData.cell cidx cell =>
    if is_elidable_cell cell.ctype then ChunkExpr.elided_cell_inline cidx
    else ChunkExpr.elided_cell_port cidx
      ((assocLookup res.cell_wire_defs (cidx, w)).getD PortName.A)
  | FNodeData.process _ => ChunkExpr.invalid

/-- dump_sigchunk (lines 536-571): a constant chunk dumps the constant; a
non-lhs chunk of an elided wire inlines its defining node; otherwise a
localized wire is named directly and any other wire gets .next when assigned
and .curr when read. -/
def dump_sigchunk_kind (res : AnalyzeResult) (chunk : SigChunk) (is_lhs : Bool) : ChunkExpr :=
  match chunk.wire with
  | none => ChunkExpr.constv chunk.width chunk.offset
  | some w =>
    if ¬ is_lhs ∧ (assocLookup res.elided_wires w).isSome then
      elided_chunk_expr res w
    else if w ∈ res.localized_wires then ChunkExpr.localized_name w
    else if is_lhs then ChunkExpr.wire_next w
    else ChunkExpr.wire_curr w

/-- What dump_wire emits for one wire. -/
inductive WireDecl where
  | no_decl
  | local_value (width : Nat) (w : Nat)
  | member_wire (width : Nat) (w : Nat) (edge_flags : List EdgeEvent)
deriving DecidableEq, Repr

/-- dump_wire (lines 1117-1150): elided wires are skipped in both modes; in
local mode only localized wires get a value declaration; in member mode
localized wires are skipped and the rest get a wire declaration plus, for
sync wires, one edge flag per declared event of their sync-typed bits. -/
def dump_wire_kind (res : AnalyzeResult) (wires : List RWire) (w : Nat)
    (is_local : Bool) : WireDecl :=
  if (assocLookup res.elided_wires w).isSome then WireDecl.no_decl
  else if is_local then
    if w ∈ res.localized_wires then WireDecl.local_value (wire_width wires w) w
    else WireDecl.no_decl
  else if w ∈ res.localized_wires then WireDecl.no_decl
  else
    WireDecl.member_wire (wire_width wires w) w
      (if w ∈ res.sync.sync_wires then
        res.sync.sync_types.foldl (fun acc st =>
          if st.1.1 = w then acc ++ declared_events_for st.1 st.2 else acc) []
      else [])

theorem elided_chunk_expr_ne_localized (res : AnalyzeResult) (w x : Nat) :
    elided_chunk_expr res w ≠ ChunkExpr.localized_name x := by
  unfold elided_chunk_expr
  split
  · intro h
    exact ChunkExpr.noConfusion h
  · split
    · intro h
      exact ChunkExpr.noConfusion h
    · intro h
      exact ChunkExpr.noConfusion h
  · intro h
    exact ChunkExpr.noConfusion h

/-- C9: a wire that is both elided and localized is treated as elided by
emission: dump_wire declares nothing for it in either mode, and a read of a
chunk of the wire in dump_sigchunk takes the elided branch, inlining the
defining node's expression instead of emitting the localized name. -/
theorem c9_elided_wins (res : AnalyzeResult) (wires : List RWire) (w : Nat)
    (chunk : SigChunk)
    (helided : (assocLookup res.elided_wires w).isSome = true)
    (hloc : w ∈ res.localized_wires)
    (hchunk : chunk.wire = some w) :
    dump_wire_kind res wires w true = WireDecl.no_decl ∧
    dump_wire_kind res wires w false = WireDecl.no_decl ∧
    dump_sigchunk_kind res chunk false = elided_chunk_expr res w ∧
    dump_sigchunk_kind res chunk false ≠ ChunkExpr.localized_name w := by
  have hcond : ¬ (false : Bool) = true ∧ (assocLookup res.elided_wires w).isSome = true :=
    ⟨Bool.false_ne_true, helided⟩
  have he : dump_sigchunk_kind res chunk false = elided_chunk_expr res w := by
    unfold dump_sigchunk_kind
    simp only [hchunk]
    rw [if_pos hcond]
  refine ⟨?_, ?_, he, ?_⟩
  · unfold dump_wire_kind
    rw [if_pos helided]
  · unfold dump_wire_kind
    rw [if_pos helided]
  · rw [he]
    exact elided_chunk_expr_ne_localized res w w

/-- Witness for C9 at M1, whose wire 0 is both elided and localized. -/
theorem c9_elided_wins_witness :
    ((assocLookup (analyze_module flagsO2 M1).elided_wires 0).isSome = true ∧
     0 ∈ (analyze_module flagsO2 M1).localized_wires ∧
     (⟨some 0, 0, 1⟩ : SigChunk).wire = some 0) ∧
    (dump_wire_kind (analyze_module flagsO2 M1) M1.wires 0 true = WireDecl.no_decl ∧
     dump_wire_kind (analyze_module flagsO2 M1) M1.wires 0 false = WireDecl.no_decl ∧
     dump_sigchunk_kind (analyze_module flagsO2 M1) ⟨some 0, 0, 1⟩ false =
       elided_chunk_expr (analyze_module flagsO2 M1) 0 ∧
     dump_sigchunk_kind (analyze_module flagsO2 M1) ⟨some 0, 0, 1⟩ false ≠
       ChunkExpr.localized_name 0) :=
  ⟨⟨by decide, by decide, rfl⟩,
   c9_elided_wins (analyze_module flagsO2 M1) M1.wires 0 ⟨some 0, 0, 1⟩
     (by decide) (by decide) rfl⟩

/-! ## Component G (part): the flip-flop arm of dump_cell (lines 782-858) -/

/-- An update statement the flip-flop arm can emit into eval. -/
inductive FFStmt where
  | clocked_update (posedge : Bool) (clkbit : Nat × Nat) (has_en : Bool)
  | level_update
  | arst_update
  | set_update
  | clr_update
deriving DecidableEq, Repr

/-- The flip-flop arm of dump_cell (lines 782-858), reduced to which update
statements are emitted: a clocked Q-update guarded by the edge flag when CLK
exists and is a wire, otherwise a level-sensitive update when an EN port
exists; then unconditional blocks for ARST, SET and CLR ports. -/
def dump_ff_cell (m : RModule) (cell : RCell) : List FFStmt :=
  (if hasPort cell PortName.CLK ∧
      (sig_as_wire m.wires ((getPort cell PortName.CLK).getD [])).isSome then
    [FFStmt.clocked_update cell.clk_polarity
      (m.sigmap_bit (sig_bit0 ((getPort cell PortName.CLK).getD [])))
      (cell.ctype = CellType.c_dffe)]
  else if hasPort cell PortName.EN then [FFStmt.level_update] else []) ++
  (if hasPort cell PortName.ARST then [FFStmt.arst_update] else []) ++
  (if hasPort cell PortName.SET then [FFStmt.set_update] else []) ++
  (if hasPort cell PortName.CLR then [FFStmt.clr_update] else [])

/-- C10: a dff-family cell whose CLK port holds a constant rather than a
wire causes no edge-signal registration in analyze_design; and for a $dff
cell with such a clock (no EN, ARST, SET or CLR ports either), the flip-flop
arm of dump_cell emits no update statement into eval at all. -/
theorem c10_const_clock (m : RModule) (sync : SyncState) (cell : RCell) (clk : SigSpec)
    (hff : cell.ctype = CellType.c_dff ∨ cell.ctype = CellType.c_dffe ∨
      cell.ctype = CellType.c_adff ∨ cell.ctype = CellType.c_dffsr)
    (hclk : getPort cell PortName.CLK = some clk)
    (hconst : sig_as_wire m.wires clk = none) :
    cell_edge_registration m sync cell = sync ∧
    (cell.ctype = CellType.c_dff →
      ¬ hasPort cell PortName.EN → ¬ hasPort cell PortName.ARST →
      ¬ hasPort cell PortName.SET → ¬ hasPort cell PortName.CLR →
      dump_ff_cell m cell = []) := by
  have hmem : ∀ s : SyncState, mem_edge_registration m s cell = s := by
    intro s
    unfold mem_edge_registration
    have hnc : ¬ ((cell.ctype = CellType.c_memrd ∨ cell.ctype = CellType.c_memwr) ∧
        cell.clk_enable = true) := by
      rintro ⟨hc, _⟩
      rcases hff with h | h | h | h <;> rcases hc with hc | hc <;> rw [h] at hc <;>
        exact CellType.noConfusion hc
    rw [if_neg hnc]
  have hdffreg : dff_edge_registration m sync cell = sync := by
    unfold dff_edge_registration
    rw [if_pos hff]
    simp only [hclk]
    rw [hconst]
    rfl
  constructor
  · show mem_edge_registration m (dff_edge_registration m sync cell) cell = sync
    rw [hmem, hdffreg]
  · intro hdff hEN hARST hSET hCLR
    unfold dump_ff_cell
    have hc1 : ¬ (hasPort cell PortName.CLK = true ∧
        (sig_as_wire m.wires ((getPort cell PortName.CLK).getD [])).isSome = true) := by
      rintro ⟨_, hs⟩
      rw [hclk] at hs
      simp only [Option.getD_some] at hs
      rw [hconst] at hs
      exact Bool.false_ne_true hs
    rw [if_neg hc1, if_neg hEN, if_neg hARST, if_neg hSET, if_neg hCLR]
    rfl

def cell_dff_constclk : RCell :=
  ⟨[36, 102], CellType.c_dff,
   [(PortName.CLK, constSig 1), (PortName.D, sigOfWire 0 1), (PortName.Q, sigOfWire 1 1)],
   true, false, true, true, true, true, false, 0, 0, []⟩

/-- A module holding one $dff whose clock is the constant 1'0. -/
def M4 : RModule := ⟨[wire_ix, wire_iy], [], [cell_dff_constclk], [], id⟩

/-- Witness for C10 at a concrete $dff with a constant clock. -/
theorem c10_const_clock_witness :
    ((cell_dff_constclk.ctype = CellType.c_dff ∨
      cell_dff_constclk.ctype = CellType.c_dffe ∨
      cell_dff_constclk.ctype = CellType.c_adff ∨
      cell_dff_constclk.ctype = CellType.c_dffsr) ∧
     getPort cell_dff_constclk PortName.CLK = some (constSig 1) ∧
     sig_as_wire M4.wires (constSig 1) = none) ∧
    (cell_edge_registration M4 ⟨[], []⟩ cell_dff_constclk = ⟨[], []⟩ ∧
     dump_ff_cell M4 cell_dff_constclk = []) :=
  ⟨⟨by decide, by decide, by decide⟩,
   ⟨(c10_const_clock M4 ⟨[], []⟩ cell_dff_constclk (constSig 1)
       (by decide) (by decide) (by decide)).1,
    (c10_const_clock M4 ⟨[], []⟩ cell_dff_constclk (constSig 1)
       (by decide) (by decide) (by decide)).2
      (by decide) (by decide) (by decide) (by decide) (by decide)⟩⟩
